import Mathlib

/-!
# Shard routing and result composition of the RethinkDB protocol layer

A shallow embedding of `rdb_protocol/protocol.cc` (shard and unshard visitors,
`sindex_key_range`, `region_from_keys`, `scale_down_distribution`, the
per-variant unshard procedures) together with theorems checking the
natural-language specification of that file.

Store keys are byte strings; we model a byte as `Fin 256` and a key as a
`List (Fin 256)`.  `store_key_t` comparison is lexicographic byte comparison
(shorter key precedes its extensions), which we implement as the boolean
function `keyLtb`.  Types that the translation unit only uses opaquely
(datums, profile event logs, batch specs, durability, limits) are modelled by
plain `Nat`/`Bool` placeholders carrying no structure, since the routines
under verification never inspect them.
-/

namespace RdbVerify

/-- A byte of a store key. -/
abbrev Byte := Fin 256

/-- A store key: the byte contents of a `store_key_t`. -/
abbrev Key := List Byte

/-- Modelled from the spec: `store_key_t` keys are bounded byte strings; the
real bound is `MAX_KEY_SIZE = 250` bytes.  Only `store_key_t::max()` depends
on it, and no theorem below depends on the exact value beyond `3 ≤` it. -/
def MAX_KEY_SIZE : Nat := 250

/-- Modelled from the spec: `store_key_t::max()`, the maximal store key — the
longest key consisting entirely of maximal (`0xFF`) bytes. -/
def keyMaxKey : Key := List.replicate MAX_KEY_SIZE (255 : Fin 256)

/-- Modelled from the spec: `store_key_t::min()`, the empty key. -/
def keyMinKey : Key := []

/-- Lexicographic strict comparison of store keys (`store_key_t::operator<`):
memcmp on the common length, a proper prefix precedes its extensions. -/
def keyLtb : Key → Key → Bool
  | [], [] => false
  | [], _ :: _ => true
  | _ :: _, [] => false
  | a :: as, b :: bs => if a < b then true else if b < a then false else keyLtb as bs

/-- Non-strict key comparison, `a <= b` as `!(b < a)`. -/
def keyLeb (a b : Key) : Bool := !(keyLtb b a)

theorem keyLtb_irrefl (a : Key) : keyLtb a a = false := by
  induction a with
  | nil => rfl
  | cons x xs ih => simp [keyLtb, ih]

theorem keyLtb_asymm : ∀ a b : Key, keyLtb a b = true → keyLtb b a = false := by
  intro a
  induction a with
  | nil => intro b _; cases b <;> rfl
  | cons x xs ih =>
    intro b h
    cases b with
    | nil => simp [keyLtb] at h
    | cons y ys =>
      by_cases hxy : x < y
      · simp [keyLtb, hxy, asymm hxy, not_lt_of_lt hxy]
      · by_cases hyx : y < x
        · simp [keyLtb, hxy, hyx] at h
        · simp [keyLtb, hxy, hyx] at h ⊢
          exact ih ys h

theorem keyLtb_trans : ∀ a b c : Key, keyLtb a b = true → keyLtb b c = true →
    keyLtb a c = true := by
  intro a
  induction a with
  | nil =>
    intro b c hab hbc
    cases b with
    | nil => simp [keyLtb] at hab
    | cons y ys => cases c with
      | nil => simp [keyLtb] at hbc
      | cons z zs => rfl
  | cons x xs ih =>
    intro b c hab hbc
    cases b with
    | nil => simp [keyLtb] at hab
    | cons y ys =>
      cases c with
      | nil => simp [keyLtb] at hbc
      | cons z zs =>
        rcases lt_trichotomy x y with hxy | hxy | hxy
        · rcases lt_trichotomy y z with hyz | hyz | hyz
          · simp [keyLtb, lt_trans hxy hyz]
          · subst hyz; simp [keyLtb, hxy]
          · simp [keyLtb, hyz, asymm hyz] at hbc
        · subst hxy
          rcases lt_trichotomy x z with hyz | hyz | hyz
          · simp [keyLtb, hyz]
          · subst hyz
            simp [keyLtb, lt_irrefl] at hab hbc ⊢
            exact ih ys zs hab hbc
          · simp [keyLtb, hyz, asymm hyz] at hbc
        · simp [keyLtb, hxy, asymm hxy] at hab

theorem keyLtb_connex : ∀ a b : Key, keyLtb a b = false → keyLtb b a = false → a = b := by
  intro a
  induction a with
  | nil =>
    intro b hab _
    cases b with
    | nil => rfl
    | cons y ys => simp [keyLtb] at hab
  | cons x xs ih =>
    intro b hab hba
    cases b with
    | nil => simp [keyLtb] at hba
    | cons y ys =>
      rcases lt_trichotomy x y with hxy | hxy | hxy
      · simp [keyLtb, hxy] at hab
      · subst hxy
        simp [keyLtb, lt_irrefl] at hab hba
        rw [ih ys hab hba]
      · simp [keyLtb, hxy, asymm hxy] at hba

theorem keyLeb_refl (a : Key) : keyLeb a a = true := by
  simp [keyLeb, keyLtb_irrefl]

theorem keyLeb_total (a b : Key) : keyLeb a b = true ∨ keyLeb b a = true := by
  by_cases h : keyLtb b a = true
  · right; simp [keyLeb, keyLtb_asymm b a h]
  · left; simp [keyLeb]; exact Bool.not_eq_true _ ▸ (by simpa using h)

theorem keyLeb_trans (a b c : Key) (hab : keyLeb a b = true) (hbc : keyLeb b c = true) :
    keyLeb a c = true := by
  simp only [keyLeb, Bool.not_eq_true'] at hab hbc ⊢
  by_contra h
  have hca : keyLtb c a = true := by
    revert h; cases keyLtb c a <;> simp
  rcases Bool.eq_false_or_eq_true (keyLtb a b) with h1 | h1
  · have := keyLtb_trans c a b hca h1
    rw [this] at hbc; exact Bool.noConfusion hbc
  · have hab' : a = b := keyLtb_connex a b h1 hab
    subst hab'
    rw [hca] at hbc; exact Bool.noConfusion hbc

set_option maxRecDepth 4096

theorem keyLeb_antisymm (a b : Key) (hab : keyLeb a b = true) (hba : keyLeb b a = true) :
    a = b := by
  simp only [keyLeb, Bool.not_eq_true'] at hab hba
  exact keyLtb_connex a b hba hab

theorem keyLtb_of_not_keyLeb (a b : Key) (h : ¬ keyLeb a b = true) : keyLtb b a = true := by
  simp only [keyLeb, Bool.not_eq_true', Bool.not_eq_false] at h
  exact h

/-- Every bounded key is `<=` the maximal key. -/
theorem keyLeb_keyMaxKey (a : Key) (h : a.length ≤ MAX_KEY_SIZE) :
    keyLeb a keyMaxKey = true := by
  suffices hgen : ∀ n (a : Key), a.length ≤ n → keyLtb (List.replicate n (255 : Fin 256)) a = false by
    simpa [keyLeb] using hgen MAX_KEY_SIZE a h
  intro n
  induction n with
  | zero =>
    intro a ha
    have : a = [] := List.length_eq_zero.mp (Nat.le_zero.mp ha)
    subst this; rfl
  | succ m ih =>
    intro a ha
    cases a with
    | nil => rw [List.replicate_succ]; rfl
    | cons x xs =>
      rw [List.replicate_succ]
      have h255 : ((255 : Fin 256)).val = 255 := rfl
      have hnlt : ¬ ((255 : Fin 256) < x) := by
        rw [Fin.lt_def, h255]
        have := x.isLt
        omega
      simp only [keyLtb]
      rcases Nat.lt_or_ge x.val 255 with hlt | hge
      · have hx : x < (255 : Fin 256) := by rw [Fin.lt_def, h255]; exact hlt
        rw [if_neg hnlt, if_pos hx]
      · have hxeq : x = (255 : Fin 256) := by
          apply Fin.ext
          have := x.isLt
          rw [h255]
          omega
        subst hxeq
        rw [if_neg hnlt, if_neg (lt_irrefl _)]
        exact ih xs (Nat.le_of_succ_le_succ (by simpa using ha))

/-- The empty key is `<=` every key. -/
theorem keyLeb_keyMinKey (a : Key) : keyLeb keyMinKey a = true := by
  cases a <;> rfl

/-! ## Sort orders -/

/-- `sorting_t`. -/
inductive Sorting
  | unordered
  | ascending
  | descending
  deriving DecidableEq

/-- Modelled from the spec: `reversed(sorting)` holds exactly for descending
sorts. -/
def Sorting.reversedb : Sorting → Bool
  | .descending => true
  | _ => false

/-- `key_max(sorting_t)` from the source: the sort-max sentinel, the maximal
store key for a non-reversed sort and the minimal store key otherwise. -/
def key_max (s : Sorting) : Key :=
  if !s.reversedb then keyMaxKey else keyMinKey

/-- Modelled from the spec: `key_le_t(sorting).is_le`, the active sort order's
key comparator (`a <= b` for ascending-style sorts, `b <= a` for
descending). -/
def keyLeSort (s : Sorting) (a b : Key) : Bool :=
  if s.reversedb then keyLeb b a else keyLeb a b

theorem keyLeSort_refl (s : Sorting) (a : Key) : keyLeSort s a a = true := by
  cases s <;> simp [keyLeSort, Sorting.reversedb, keyLeb_refl]

theorem keyLeSort_trans (s : Sorting) (a b c : Key) (h1 : keyLeSort s a b = true)
    (h2 : keyLeSort s b c = true) : keyLeSort s a c = true := by
  cases s <;> simp only [keyLeSort, Sorting.reversedb, if_true, if_false,
    Bool.ite_eq_true_distrib] at h1 h2 ⊢
  · exact keyLeb_trans a b c h1 h2
  · exact keyLeb_trans a b c h1 h2
  · exact keyLeb_trans c b a h2 h1

theorem keyLeSort_total (s : Sorting) (a b : Key) :
    keyLeSort s a b = true ∨ keyLeSort s b a = true := by
  cases s <;> simp only [keyLeSort, Sorting.reversedb, if_true, if_false]
  · exact keyLeb_total a b
  · exact keyLeb_total a b
  · exact (keyLeb_total b a)

/-! ## Regions

Modelled from the spec §3: a region is the product of a half-open hash
interval over the 64-bit hash space and a key range with independent
open/closed bounds (or a `none` marker for an unbounded side).  A region
contains a key `k` iff `hash(k)` lies in the hash interval and `k` lies in
the key range; intersection is component-wise, and a region is empty iff
either component is empty (`hash_region.hpp` / `key_range_t` are not part of
this translation unit). -/

/-- Size of the hash space, `HASH_REGION_HASH_SIZE` (spec: `2^64`). -/
def HASH_SIZE : Nat := 2 ^ 64

/-- One bound of a key range. -/
inductive KBound
  | unbounded
  | openb (k : Key)
  | closedb (k : Key)
  deriving DecidableEq

/-- A key range with independent bounds on each side. -/
structure KeyRange where
  lo : KBound
  hi : KBound
  deriving DecidableEq

/-- Membership of a key in a key range. -/
def KeyRange.containsKey (r : KeyRange) (k : Key) : Bool :=
  (match r.lo with
    | .unbounded => true
    | .openb a => keyLtb a k
    | .closedb a => keyLeb a k)
  && (match r.hi with
    | .unbounded => true
    | .openb b => keyLtb k b
    | .closedb b => keyLeb k b)

/-- The universal key range, `key_range_t::universe()`. -/
def KeyRange.universe : KeyRange := ⟨.unbounded, .unbounded⟩

/-- Emptiness of a key range, decided by bound comparison (a sufficient
decidable rendering of "no key lies in it"; open-open ranges are treated as
empty when the bounds touch). -/
def KeyRange.isEmpty (r : KeyRange) : Bool :=
  match r.lo, r.hi with
  | .unbounded, _ => false
  | _, .unbounded => false
  | .closedb a, .closedb b => keyLtb b a
  | .closedb a, .openb b => keyLeb b a
  | .openb a, .closedb b => keyLeb b a
  | .openb a, .openb b => keyLeb b a

/-- The greater of two lower bounds (for component-wise intersection). -/
def KBound.maxLo : KBound → KBound → KBound
  | .unbounded, b => b
  | a, .unbounded => a
  | .openb a, .openb b => if keyLtb a b then .openb b else .openb a
  | .openb a, .closedb b => if keyLtb a b then .closedb b else .openb a
  | .closedb a, .openb b => if keyLtb b a then .closedb a else .openb b
  | .closedb a, .closedb b => if keyLtb a b then .closedb b else .closedb a

/-- The lesser of two upper bounds (for component-wise intersection). -/
def KBound.minHi : KBound → KBound → KBound
  | .unbounded, b => b
  | a, .unbounded => a
  | .openb a, .openb b => if keyLtb b a then .openb b else .openb a
  | .openb a, .closedb b => if keyLtb b a then .closedb b else .openb a
  | .closedb a, .openb b => if keyLtb a b then .closedb a else .openb b
  | .closedb a, .closedb b => if keyLtb b a then .closedb b else .closedb a

/-- Component-wise intersection of key ranges. -/
def KeyRange.intersect (r s : KeyRange) : KeyRange :=
  ⟨KBound.maxLo r.lo s.lo, KBound.minHi r.hi s.hi⟩

/-- `hash_region_t<key_range_t>`: hash interval `[hbeg, hend)` times a key
range. -/
structure Region where
  hbeg : Nat
  hend : Nat
  inner : KeyRange
  deriving DecidableEq

/-- The universal region. -/
def Region.universe : Region := ⟨0, HASH_SIZE, KeyRange.universe⟩

/-- Default-constructed `hash_region_t<key_range_t>`: the empty region. -/
def Region.empty : Region := ⟨0, 0, ⟨.closedb [], .openb []⟩⟩

/-- `region_is_empty`: either component empty. -/
def Region.isEmpty (r : Region) : Bool :=
  decide (r.hend ≤ r.hbeg) || r.inner.isEmpty

/-- `region_intersection`: component-wise. -/
def Region.intersect (r s : Region) : Region :=
  ⟨max r.hbeg s.hbeg, min r.hend s.hend, r.inner.intersect s.inner⟩

/-- `region_contains_key(region, key)` over an arbitrary hasher
(`hash_region_hasher` is external; the theorems quantify over it). -/
def regionContainsKey (hash : Key → Nat) (r : Region) (k : Key) : Bool :=
  decide (r.hbeg ≤ hash k) && decide (hash k < r.hend) && r.inner.containsKey k

/-- `rdb_protocol::monokey_region`: the region containing only key `k`. -/
def monokey_region (hash : Key → Nat) (k : Key) : Region :=
  ⟨hash k, hash k + 1, ⟨.closedb k, .closedb k⟩⟩

/-- `sindex_list_region_key()`: the canonical empty key. -/
def sindex_list_region_key : Key := []

/-! ## Read operations and `read_t::shard`

Each variant carries exactly the fields that the sharding code inspects or
rewrites (the key for keyed ops, the region for rangey ops, and for
`rget_read_t` also the batch spec and sort order); the remaining payload
fields ride along unchanged in the source and are omitted.  A batch spec is
modelled by its row count. -/

/-- Modelled from the spec: the fixed CPU-sharding factor by which a range
read's batch spec is scaled down per shard (its value is irrelevant to the
claims). -/
def CPU_SHARDING_FACTOR : Nat := 8

/-- Modelled from the spec: `batchspec_t::scale_down`, dividing the per-batch
row count by the sharding factor. -/
def batchspecScaleDown (b : Nat) (factor : Nat) : Nat := b / factor

/-- `rget_read_t` (fields touched by sharding/unsharding). -/
structure RgetRead where
  region : Region
  batchspec : Nat
  sorting : Sorting
  deriving DecidableEq

/-- `read_t::variant_t`, the tagged sum of read operations. -/
inductive ReadVariant
  | pointRead (key : Key)
  | rgetRead (rg : RgetRead)
  | intersectingGeo (region : Region)
  | nearestGeo (region : Region) (maxResults : Nat)
  | distribution (region : Region) (resultLimit : Nat)
  | sindexList
  | sindexStatus (region : Region)
  | changefeedSubscribe (region : Region)
  | changefeedStamp (region : Region)
  | changefeedPointStamp (key : Key)
  deriving DecidableEq

/-- The default-constructed `read_t::variant_t`: its first alternative,
a default `point_read_t` (empty key), per the variant order of the header
(the spec lists `point_read` first). -/
def defaultReadVariant : ReadVariant := .pointRead []

/-- `rdb_r_shard_visitor_t::keyed_read`: return the original payload iff the
shard region contains the extracted key. -/
def keyedRead {α : Type} (hash : Key → Nat) (region : Region) (arg : α) (key : Key) :
    Option α :=
  if regionContainsKey hash region key then some arg else none

/-- `rdb_r_shard_visitor_t::rangey_read` (and `rangey_write`): intersect the
shard region with the operation's region; decline if empty, else return the
payload with the intersection substituted.  `setR` rebuilds the payload from
the new region. -/
def rangeyRead {α : Type} (region : Region) (argRegion : Region) (setR : Region → α) :
    Option α :=
  let i := region.intersect argRegion
  if !i.isEmpty then some (setR i) else none

/-- `rdb_r_shard_visitor_t`: per-variant sharding of a read. -/
def readShardVisitor (hash : Key → Nat) (region : Region) :
    ReadVariant → Option ReadVariant
  | .pointRead k => keyedRead hash region (ReadVariant.pointRead k) k
  | .rgetRead rg =>
      match rangeyRead region rg.region
          (fun i => ReadVariant.rgetRead { rg with region := i }) with
      | some (ReadVariant.rgetRead out) =>
          some (ReadVariant.rgetRead
            { out with batchspec := batchspecScaleDown out.batchspec CPU_SHARDING_FACTOR })
      | o => o
  | .intersectingGeo r => rangeyRead region r (fun i => ReadVariant.intersectingGeo i)
  | .nearestGeo r m => rangeyRead region r (fun i => ReadVariant.nearestGeo i m)
  | .distribution r l => rangeyRead region r (fun i => ReadVariant.distribution i l)
  | .sindexList => keyedRead hash region ReadVariant.sindexList sindex_list_region_key
  | .sindexStatus r => rangeyRead region r (fun i => ReadVariant.sindexStatus i)
  | .changefeedSubscribe r => rangeyRead region r (fun i => ReadVariant.changefeedSubscribe i)
  | .changefeedStamp r => rangeyRead region r (fun i => ReadVariant.changefeedStamp i)
  | .changefeedPointStamp k =>
      keyedRead hash region (ReadVariant.changefeedPointStamp k) k

/-- `read_t`: a read variant plus the profile flag. -/
structure Read where
  read : ReadVariant
  profile : Bool
  deriving DecidableEq

/-- `read_t::shard`: run the visitor into a default-initialized payload and
always assign the out-parameter `read_t(payload, profile)`. -/
def Read.shard (hash : Key → Nat) (r : Read) (region : Region) : Bool × Read :=
  let payload := readShardVisitor hash region r.read
  (payload.isSome, ⟨payload.getD defaultReadVariant, r.profile⟩)

/-! ## Write operations and `write_t::shard` -/

/-- `write_t::variant_t`.  A `batched_insert_t` row is represented by its
printed primary key (`row->get(pkey)->print_primary()`), the only attribute
the sharding layer inspects; the other metadata fields (`pkey`, conflict
behavior, limits, return-changes, the replace function) ride along unchanged
in the source and are omitted. -/
inductive WriteVariant
  | batchedReplace (keys : List Key)
  | batchedInsert (inserts : List Key)
  | pointWrite (key : Key)
  | pointDelete (key : Key)
  | sindexCreate (region : Region)
  | sindexDrop (region : Region)
  | sindexRename (region : Region)
  | sync (region : Region)
  deriving DecidableEq

/-- The default-constructed `write_t::variant_t`: its first alternative, a
default `batched_replace_t` (empty key list). -/
def defaultWriteVariant : WriteVariant := .batchedReplace []

/-- `rdb_w_shard_visitor_t`: per-variant sharding of a write.
`keyed_write` is `keyedRead` on the write's key; batched ops filter their
key/row list by region membership and decline when the filter is empty. -/
def writeShardVisitor (hash : Key → Nat) (region : Region) :
    WriteVariant → Option WriteVariant
  | .batchedReplace keys =>
      let shardKeys := keys.filter (fun k => regionContainsKey hash region k)
      if !shardKeys.isEmpty then some (WriteVariant.batchedReplace shardKeys) else none
  | .batchedInsert inserts =>
      let shardInserts := inserts.filter (fun k => regionContainsKey hash region k)
      if !shardInserts.isEmpty then some (WriteVariant.batchedInsert shardInserts) else none
  | .pointWrite k => keyedRead hash region (WriteVariant.pointWrite k) k
  | .pointDelete k => keyedRead hash region (WriteVariant.pointDelete k) k
  | .sindexCreate r => rangeyRead region r (fun i => WriteVariant.sindexCreate i)
  | .sindexDrop r => rangeyRead region r (fun i => WriteVariant.sindexDrop i)
  | .sindexRename r => rangeyRead region r (fun i => WriteVariant.sindexRename i)
  | .sync r => rangeyRead region r (fun i => WriteVariant.sync i)

/-- `write_t`: a write variant plus durability requirement, profile flag and
configured limits (the latter two modelled opaquely). -/
structure Write where
  write : WriteVariant
  durability : Nat
  profile : Bool
  limits : Nat
  deriving DecidableEq

/-- `write_t::shard`: run the visitor into a default-initialized payload and
always assign `write_t(payload, durability_requirement, profile, limits)`. -/
def Write.shard (hash : Key → Nat) (w : Write) (region : Region) : Bool × Write :=
  let payload := writeShardVisitor hash region w.write
  (payload.isSome, ⟨payload.getD defaultWriteVariant, w.durability, w.profile, w.limits⟩)

/-! ## `region_from_keys` -/

/-- The running state of the `region_from_keys` loop. -/
structure RFKState where
  minKey : Key
  maxKey : Key
  minHash : Nat
  maxHash : Nat

/-- One iteration of the `region_from_keys` loop. -/
def rfkStep (hash : Key → Nat) (st : RFKState) (k : Key) : RFKState :=
  { minKey := if keyLtb k st.minKey then k else st.minKey
    maxKey := if keyLtb st.maxKey k then k else st.maxKey
    minHash := if hash k < st.minHash then hash k else st.minHash
    maxHash := if st.maxHash < hash k then hash k else st.maxHash }

/-- `region_from_keys`: the minimal bounding region of a non-empty key list
(`[min_hash, max_hash + 1)` times closed-closed `[min_key, max_key]`);
an empty list yields the default (empty) region. -/
def region_from_keys (hash : Key → Nat) (keys : List Key) : Region :=
  if keys.isEmpty then Region.empty
  else
    let st := keys.foldl (rfkStep hash) ⟨keyMaxKey, keyMinKey, HASH_SIZE - 1, 0⟩
    ⟨st.minHash, st.maxHash + 1, ⟨.closedb st.minKey, .closedb st.maxKey⟩⟩

/-- `rdb_w_get_region_visitor` on `batched_replace_t`: bounding region of the
keys. -/
def batchedReplaceRegion (hash : Key → Nat) (keys : List Key) : Region :=
  region_from_keys hash keys

/-- `rdb_w_get_region_visitor` on `batched_insert_t`: bounding region of the
rows' printed primary keys (rows are modelled by those keys). -/
def batchedInsertRegion (hash : Key → Nat) (inserts : List Key) : Region :=
  region_from_keys hash inserts

/-! ## `rdb_protocol::sindex_key_range` -/

/-- The right-bound successor computation of `sindex_key_range`: strip
trailing maximal (`0xFF`) bytes; if nothing remains use the maximal store
key, else increment the last remaining byte. -/
def stripMax : Key → Key
  | [] => []
  | b :: rest =>
      let r := stripMax rest
      if r.isEmpty && b = (255 : Fin 256) then [] else b :: r

/-- Increment the last byte of a key (byte arithmetic wraps like the
source's `char` increment; the caller only applies it to keys whose last
byte is not `0xFF`). -/
def incrLast : Key → Key
  | [] => []
  | [b] => [b + 1]
  | b :: rest => b :: incrLast rest

/-- The computed successor of the right bound in `sindex_key_range`. -/
def sindexSuccessor (k : Key) : Key :=
  let s := stripMax k
  if s.isEmpty then keyMaxKey else incrLast s

/-- `rdb_protocol::sindex_key_range`: closed at `start`, open at the
successor of `fin`. -/
def sindex_key_range (start fin : Key) : KeyRange :=
  ⟨.closedb start, .openb (sindexSuccessor fin)⟩

/-! ## Unshard: range reads (`rget_read_t`)

The per-shard `rget_read_response_t` carries `truncated`, `last_key` and a
result-or-error payload.  The accumulator machinery (`ql::make_append` /
`ql::make_terminal`) is external to this translation unit; on the success
path we model the composed result as the list of per-shard result payloads
in shard order.  Error payloads (`ql::exc_t`) and result payloads are
modelled opaquely by `Nat`. -/

/-- Per-shard `rget_read_response_t`. -/
structure RgetResp where
  truncated : Bool
  last_key : Key
  result : Except Nat Nat

/-- The composite `rget_read_response_t` produced by unshard. -/
structure RgetOut where
  truncated : Bool
  last_key : Key
  result : Except Nat (List Nat)

/-- The loop of `rdb_r_unshard_visitor_t::operator()(const rget_read_t &)`:
fold `truncated` and the best (sort-least) truncation point over the
responses, aborting with the first error payload encountered (in which case
`last_key` keeps its default empty value, as in the source). -/
def rgetGo (s : Sorting) : List RgetResp → Bool → Option Key → List Nat → RgetOut
  | [], t, best, acc =>
      ⟨t, (best.getD (key_max s)), Except.ok acc.reverse⟩
  | r :: rest, t, best, acc =>
      let t1 := t || r.truncated
      let best1 :=
        if r.truncated then
          match best with
          | none => some r.last_key
          | some b => if keyLeSort s r.last_key b then some r.last_key else some b
        else best
      match r.result with
      | Except.error e => ⟨t1, [], Except.error e⟩
      | Except.ok v => rgetGo s rest t1 best1 (v :: acc)

/-- Unshard for range reads: `truncated`/`last_key` composition plus
first-error-wins result composition. -/
def rgetUnshard (s : Sorting) (resps : List RgetResp) : RgetOut :=
  rgetGo s resps false none []

/-- The error of the lowest-indexed erroring shard, if any. -/
def rgetFirstError (resps : List RgetResp) : Option Nat :=
  resps.findSome? (fun r => match r.result with
    | Except.error e => some e
    | Except.ok _ => none)

/-! ## Unshard: geo intersection -/

/-- `rdb_r_unshard_visitor_t::operator()(const intersecting_geo_read_t &)`:
concatenate the per-shard result arrays in shard order; the first error
payload wins. -/
def intersectingUnshard : List (Except Nat (List Nat)) → Except Nat (List Nat)
  | [] => Except.ok []
  | (Except.error e) :: _ => Except.error e
  | (Except.ok a) :: rest =>
      match intersectingUnshard rest with
      | Except.error e => Except.error e
      | Except.ok acc => Except.ok (a ++ acc)

/-! ## Unshard: geo nearest (`nearest_geo_read_t`)

A per-shard result is a list of `(distance, datum)` pairs.  Distances are
`double`s in the source but are only ever *compared* by this code, so they
are modelled by `Nat`, preserving the comparison structure; datums are
modelled opaquely by `Nat`.

The source keeps a vector of iterator ranges, repeatedly selects the range
whose current element has the strictly smallest distance (scanning left to
right, so the leftmost range wins ties), emits that element, advances the
iterator and erases it when exhausted.  `popMin` performs one such
select-advance-erase step on the list of remaining (non-empty) ranges. -/

/-- A geo-nearest result element: `(distance, datum)`. -/
abbrev GeoElt := Nat × Nat

/-- One step of the k-way merge: pick the leftmost list whose head has the
minimal distance, return that head together with the remaining lists (the
chosen list advanced past its head and dropped when exhausted). -/
def popMin : List (List GeoElt) → Option (GeoElt × List (List GeoElt))
  | [] => none
  | l :: rest =>
      let e := l.headD (0, 0)
      match popMin rest with
      | some (e2, rest2) =>
          if e.1 ≤ e2.1 then
            some (e, if l.tail.isEmpty then rest else l.tail :: rest)
          else
            some (e2, l :: rest2)
      | none => some (e, if l.tail.isEmpty then rest else l.tail :: rest)

/-- The merge loop, bounded by the precomputed output size
(`min(sum_of_sizes, max_results)`); the fuel is exactly the number of
elements still to emit, so `popMin` never fails while fuel remains. -/
def mergeNearest : Nat → List (List GeoElt) → List GeoElt
  | 0, _ => []
  | n + 1, iters =>
      match popMin iters with
      | none => []
      | some (e, iters2) => e :: mergeNearest n iters2

/-- The first loop of the nearest-geo unshard: walk the responses in shard
order, aborting with the first error payload; otherwise collect the
non-empty result lists (in order) and the total element count. -/
def collectIters : List (Except Nat (List GeoElt)) →
    Except Nat (List (List GeoElt) × Nat)
  | [] => Except.ok ([], 0)
  | (Except.error e) :: _ => Except.error e
  | (Except.ok l) :: rest =>
      match collectIters rest with
      | Except.error e => Except.error e
      | Except.ok (its, tot) =>
          Except.ok ((if l.isEmpty then its else l :: its), tot + l.length)

/-- `rdb_r_unshard_visitor_t::operator()(const nearest_geo_read_t &)`. -/
def nearestUnshard (maxResults : Nat) (resps : List (Except Nat (List GeoElt))) :
    Except Nat (List GeoElt) :=
  match collectIters resps with
  | Except.error e => Except.error e
  | Except.ok (its, tot) => Except.ok (mergeNearest (min tot maxResults) its)

/-- The error of the lowest-indexed erroring shard, if any. -/
def geoFirstError (resps : List (Except Nat (List GeoElt))) : Option Nat :=
  resps.findSome? (fun r => match r with
    | Except.error e => some e
    | Except.ok _ => none)

/-- Same first-error extraction for the plain list payloads of the
intersecting-geo unshard. -/
def listFirstError (resps : List (Except Nat (List Nat))) : Option Nat :=
  resps.findSome? (fun r => match r with
    | Except.error e => some e
    | Except.ok _ => none)

/-! ## Unshard: distribution reads

A `distribution_read_response_t` carries a region and a key-count histogram
(`std::map<store_key_t, int64_t>`), modelled as a key-sorted association
list.  Counts are key tallies and are modelled by `Nat`.  The source
rescales the chosen hash shard's counts by the `double` factor
`total / largest`; we model that multiplication by exact integer arithmetic
(`c * total / largest`) — no theorem below depends on the count values, only
on the histogram's keys and size, which the rescaling leaves untouched. -/

/-- Per-shard `distribution_read_response_t`. -/
structure DistResp where
  region : Region
  key_counts : List (Key × Nat)
  deriving DecidableEq

/-- `std::map::insert`: insert in key order, keeping the existing entry when
the key is already present. -/
def mapInsert : List (Key × Nat) → Key → Nat → List (Key × Nat)
  | [], k, c => [(k, c)]
  | (k0, c0) :: rest, k, c =>
      if keyLtb k k0 then (k, c) :: (k0, c0) :: rest
      else if keyLtb k0 k then (k0, c0) :: mapInsert rest k c
      else (k0, c0) :: rest

/-- Insert every entry of `xs` (in order) into the accumulated map. -/
def mapInsertAll (m : List (Key × Nat)) (xs : List (Key × Nat)) : List (Key × Nat) :=
  xs.foldl (fun acc kc => mapInsert acc kc.1 kc.2) m

/-- The coalescing loop of `scale_down_distribution`: each kept bucket
absorbs the counts of the `combine` buckets that follow it. -/
def scaleDownChunks (combine : Nat) : List (Key × Nat) → List (Key × Nat)
  | [] => []
  | kc :: rest =>
      (kc.1, kc.2 + ((rest.take combine).foldl (fun a x => a + x.2) 0)) ::
        scaleDownChunks combine (rest.drop combine)
  termination_by l => l.length
  decreasing_by
    simp only [List.length_cons, List.length_drop]
    omega

/-- `scale_down_distribution`: coalesce the histogram with
`combine = size / result_limit`. -/
def scale_down_distribution (result_limit : Nat) (key_counts : List (Key × Nat)) :
    List (Key × Nat) :=
  scaleDownChunks (key_counts.length / result_limit) key_counts

/-- Total key count of one response (`tmp_total_keys`). -/
def distTotal (r : DistResp) : Nat :=
  r.key_counts.foldl (fun a kc => a + kc.2) 0

/-- Ordering of one key-range bound, used only to group equal ranges
(modelled from the spec: ordering on regions is lexicographic and is used
only for grouping in distribution merges). -/
def kbLtb : KBound → KBound → Bool
  | .unbounded, .unbounded => false
  | .unbounded, _ => true
  | .openb _, .unbounded => false
  | .openb a, .openb b => keyLtb a b
  | .openb _, .closedb _ => true
  | .closedb _, .unbounded => false
  | .closedb _, .openb _ => false
  | .closedb a, .closedb b => keyLtb a b

/-- Lexicographic ordering of key ranges. -/
def krLtb (a b : KeyRange) : Bool :=
  kbLtb a.lo b.lo || (a.lo = b.lo && kbLtb a.hi b.hi)

/-- Lexicographic ordering of regions (hash interval after key range). -/
def regionLtb (a b : Region) : Bool :=
  krLtb a.inner b.inner ||
    (a.inner = b.inner &&
      (decide (a.hbeg < b.hbeg) ||
        (a.hbeg = b.hbeg && decide (a.hend < b.hend))))

/-- `distribution_read_response_less_t`. -/
def distLess (x y : DistResp) : Bool :=
  if x.region.inner = y.region.inner then regionLtb x.region y.region
  else krLtb x.region.inner y.region.inner

/-- Insertion of one response into a sorted run (for the `std::sort` step). -/
def distInsert (x : DistResp) : List DistResp → List DistResp
  | [] => [x]
  | y :: rest => if distLess x y then x :: y :: rest else y :: distInsert x rest

/-- Sorting the responses with `distribution_read_response_less_t`. -/
def distSort : List DistResp → List DistResp
  | [] => []
  | x :: rest => distInsert x (distSort rest)

theorem length_dropWhile_le {α : Type} (p : α → Bool) (l : List α) :
    (l.dropWhile p).length ≤ l.length := by
  induction l with
  | nil => simp [List.dropWhile]
  | cons x rest ih =>
    by_cases hp : p x = true
    · simp only [List.dropWhile_cons, hp, if_true, List.length_cons]
      omega
    · simp only [List.dropWhile_cons, Bool.not_eq_true _ ▸ hp]
      simp only [Bool.not_eq_true] at hp
      simp [hp]

/-- The grouping loop of the distribution unshard: for each run of responses
with the same key range, pick the hash shard with the (first) largest total
key count; if that total is positive, rescale its histogram by
`group_total / largest_total` and insert it into the accumulated map. -/
def mergeGroupsAux : List DistResp → List (Key × Nat) → List (Key × Nat)
  | [], acc => acc
  | r :: rest, acc =>
      let range := r.region.inner
      let grp := r :: rest.takeWhile (fun x => x.region.inner = range)
      let rest2 := rest.dropWhile (fun x => x.region.inner = range)
      let grpTotal := grp.foldl (fun a x => a + distTotal x) 0
      let pick := grp.foldl
        (fun (p : DistResp × Nat) x => if distTotal x > p.2 then (x, distTotal x) else p)
        (r, 0)
      let acc2 :=
        if pick.2 > 0 then
          mapInsertAll acc (pick.1.key_counts.map (fun kc => (kc.1, kc.2 * grpTotal / pick.2)))
        else acc
      mergeGroupsAux rest2 acc2
  termination_by l _ => l.length
  decreasing_by
    simp only [List.length_cons]
    have := length_dropWhile_le (fun x => decide (x.region.inner = r.region.inner)) rest
    omega

/-- `rdb_r_unshard_visitor_t::operator()(const distribution_read_t &)` minus
profiling: sort the responses, merge per key-range group, and scale the
histogram down when a positive `result_limit` is exceeded. -/
def distributionUnshard (result_limit : Nat) (resps : List DistResp) :
    List (Key × Nat) :=
  let res := mergeGroupsAux (distSort resps) []
  if result_limit > 0 && decide (res.length > result_limit) then
    scale_down_distribution result_limit res
  else res

/-! # Claims -/

/-! ## C1: keyed operations shard by key membership -/

/-- **C1.** For every keyed operation (`point_read`, `sindex_list`,
`changefeed_point_stamp` on the read side; `point_write`, `point_delete` on
the write side) and every shard region `R`, sharding succeeds iff `R`
contains the operation's key (the canonical empty key for `sindex_list`),
and on success the output payload is the original operation unchanged (the
declined output carries the default payload, and the profile/durability/
limits metadata is always copied). -/
theorem c1_keyed_shard_iff_contains (hash : Key → Nat) (R : Region) (p : Bool)
    (dur lim : Nat) (k : Key) :
    (Read.shard hash ⟨.pointRead k, p⟩ R =
      if regionContainsKey hash R k then (true, ⟨.pointRead k, p⟩)
      else (false, ⟨defaultReadVariant, p⟩)) ∧
    (Read.shard hash ⟨.sindexList, p⟩ R =
      if regionContainsKey hash R sindex_list_region_key then (true, ⟨.sindexList, p⟩)
      else (false, ⟨defaultReadVariant, p⟩)) ∧
    (Read.shard hash ⟨.changefeedPointStamp k, p⟩ R =
      if regionContainsKey hash R k then (true, ⟨.changefeedPointStamp k, p⟩)
      else (false, ⟨defaultReadVariant, p⟩)) ∧
    (Write.shard hash ⟨.pointWrite k, dur, p, lim⟩ R =
      if regionContainsKey hash R k then (true, ⟨.pointWrite k, dur, p, lim⟩)
      else (false, ⟨defaultWriteVariant, dur, p, lim⟩)) ∧
    (Write.shard hash ⟨.pointDelete k, dur, p, lim⟩ R =
      if regionContainsKey hash R k then (true, ⟨.pointDelete k, dur, p, lim⟩)
      else (false, ⟨defaultWriteVariant, dur, p, lim⟩)) := by
  refine ⟨?_, ?_, ?_, ?_, ?_⟩ <;>
  · by_cases h : regionContainsKey hash R k = true <;>
    by_cases h2 : regionContainsKey hash R sindex_list_region_key = true <;>
    simp [Read.shard, Write.shard, readShardVisitor, writeShardVisitor, keyedRead, h, h2]

/-! ## C10: shard always assigns its out-parameter -/

/-- **C10.** `read_t::shard` and `write_t::shard` assign their output on
every call: the output always carries the original profile flag (and for
writes also the durability requirement and limits), and a declined shard
leaves the payload default-constructed. -/
theorem c10_shard_assigns_output (hash : Key → Nat) (R : Region) (r : Read) (w : Write) :
    (r.shard hash R).2.profile = r.profile ∧
    ((r.shard hash R).1 = false → (r.shard hash R).2.read = defaultReadVariant) ∧
    (w.shard hash R).2.profile = w.profile ∧
    (w.shard hash R).2.durability = w.durability ∧
    (w.shard hash R).2.limits = w.limits ∧
    ((w.shard hash R).1 = false → (w.shard hash R).2.write = defaultWriteVariant) := by
  refine ⟨rfl, ?_, rfl, rfl, rfl, ?_⟩
  · intro h
    cases hv : readShardVisitor hash R r.read with
    | none => simp [Read.shard, hv]
    | some v => simp [Read.shard, hv] at h
  · intro h
    cases hv : writeShardVisitor hash R w.write with
    | none => simp [Write.shard, hv]
    | some v => simp [Write.shard, hv] at h

/-- Witness for C10: a concrete declined shard (empty hash interval) leaves
the payload default while preserving the metadata. -/
theorem c10_shard_assigns_output_witness :
    (Read.shard (fun _ => 0) ⟨.pointRead [3], true⟩ ⟨1, 1, KeyRange.universe⟩).2.read
        = defaultReadVariant ∧
    (Write.shard (fun _ => 0) ⟨.pointWrite [3], 5, true, 7⟩ ⟨1, 1, KeyRange.universe⟩).2.write
        = defaultWriteVariant := by
  have h := c10_shard_assigns_output (fun _ => 0) ⟨1, 1, KeyRange.universe⟩
    ⟨.pointRead [3], true⟩ ⟨.pointWrite [3], 5, true, 7⟩
  exact ⟨h.2.1 (by decide), h.2.2.2.2.2 (by decide)⟩

/-! ## C8: the concrete scale-down scenario -/

/-- The 10-bucket histogram with counts `1..10` of the scale-down
scenario. -/
def c8Hist : List (Key × Nat) :=
  [([1], 1), ([2], 2), ([3], 3), ([4], 4), ([5], 5),
   ([6], 6), ([7], 7), ([8], 8), ([9], 9), ([10], 10)]

/-- **C8, counterexample.** Scaling the histogram with counts `1..10` down
to `result_limit = 5` does *not* produce `[3, 7, 11, 15, 19]`: with
`combine = 10 / 5 = 2` each kept bucket absorbs the *two* following buckets
(groups of three), not one. -/
theorem c8_scale_down_counterexample :
    ¬ ((scale_down_distribution 5 c8Hist).map Prod.snd = [3, 7, 11, 15, 19]) := by
  simp only [scale_down_distribution, c8Hist]
  norm_num [scaleDownChunks]

/-- **C8, amended.** Scaling down the 10-bucket histogram with counts
`1..10` under `result_limit = 5` (so `combine = 2`, each kept bucket
coalescing with the 2 buckets that follow it) produces the 4-bucket
histogram `[1+2+3, 4+5+6, 7+8+9, 10] = [6, 15, 24, 10]`, keyed by the
1st, 4th, 7th and 10th original keys. -/
theorem c8_scale_down_amended :
    scale_down_distribution 5 c8Hist =
      [([1], 6), ([4], 15), ([7], 24), ([10], 10)] := by
  simp only [scale_down_distribution, c8Hist]
  norm_num [scaleDownChunks]

/-! ## C4: the secondary-index right-bound successor -/

/-- If the condition of `stripMax`'s erase loop never completes the string,
the remainder decomposes the key as `stripped ++ 0xFF-padding`. -/
theorem stripMax_append_replicate (k : Key) :
    ∃ m, k = stripMax k ++ List.replicate m (255 : Byte) := by
  induction k with
  | nil => exact ⟨0, rfl⟩
  | cons b rest ih =>
    obtain ⟨m, hm⟩ := ih
    by_cases hc : ((stripMax rest).isEmpty && decide (b = (255 : Fin 256))) = true
    · refine ⟨m + 1, ?_⟩
      have hr : stripMax rest = [] :=
        List.isEmpty_iff.mp ((Bool.and_eq_true _ _).mp hc).1
      have hb : b = (255 : Fin 256) :=
        of_decide_eq_true ((Bool.and_eq_true _ _).mp hc).2
      rw [hr] at hm
      simp only [List.nil_append] at hm
      simp only [stripMax]
      rw [if_pos hc, List.nil_append, List.replicate_succ, hb, hm]
    · refine ⟨m, ?_⟩
      simp only [stripMax]
      rw [if_neg hc, List.cons_append, ← hm]

/-- The last byte surviving the strip loop is not `0xFF`. -/
theorem stripMax_getLast?_ne (k : Key) (b : Byte) (h : (stripMax k).getLast? = some b) :
    b ≠ (255 : Fin 256) := by
  induction k with
  | nil => simp [stripMax] at h
  | cons x rest ih =>
    by_cases hc : ((stripMax rest).isEmpty && decide (x = (255 : Fin 256))) = true
    · simp only [stripMax] at h; rw [if_pos hc] at h
      simp at h
    · simp only [stripMax] at h; rw [if_neg hc] at h
      rcases he : stripMax rest with _ | ⟨y, r⟩
      · rw [he] at h
        simp only [List.getLast?_singleton, Option.some.injEq] at h
        subst h
        simp only [he, List.isEmpty_nil, Bool.true_and, decide_eq_true_eq] at hc
        exact hc
      · rw [he] at h
        rw [List.getLast?_cons_cons] at h
        exact ih (by rw [he]; exact h)

/-- `incrLast` never changes the length of a key. -/
theorem incrLast_length (s : Key) : (incrLast s).length = s.length := by
  induction s with
  | nil => rfl
  | cons b rest ih =>
    cases rest with
    | nil => rfl
    | cons c rest2 => simpa [incrLast] using ih

/-- `stripMax` never lengthens a key. -/
theorem stripMax_length_le (k : Key) : (stripMax k).length ≤ k.length := by
  induction k with
  | nil => exact Nat.le_refl 0
  | cons b rest ih =>
    by_cases hc : ((stripMax rest).isEmpty && decide (b = (255 : Fin 256))) = true
    · simp only [stripMax]; rw [if_pos hc]; simp
    · simp only [stripMax]; rw [if_neg hc]
      simpa using ih

/-- A key whose last byte is below `0xFF` is lexicographically below the key
obtained by incrementing that byte, whatever tail is appended. -/
theorem keyLtb_append_incrLast (s : Key) (b : Byte) (hlast : s.getLast? = some b)
    (hne : b ≠ (255 : Fin 256)) (t : Key) : keyLtb (s ++ t) (incrLast s) = true := by
  induction s with
  | nil => simp at hlast
  | cons x rest ih =>
    cases rest with
    | nil =>
      simp only [List.getLast?_singleton, Option.some.injEq] at hlast
      subst hlast
      have hval : x.val < 255 := by
        have h1 := x.isLt
        have h2 : x.val ≠ 255 := fun hv => hne (Fin.ext hv)
        omega
      have hlt : x < x + 1 := by
        rw [Fin.lt_def, Fin.val_add]
        have : ((1 : Fin 256)).val = 1 := rfl
        rw [this, Nat.mod_eq_of_lt (by omega)]
        omega
      simp [incrLast, keyLtb, hlt]
    | cons y rest2 =>
      rw [List.getLast?_cons_cons] at hlast
      simp only [List.cons_append, incrLast, keyLtb, lt_irrefl, if_false]
      exact ih hlast

/-- If every byte of `k` is maximal then the strip loop empties it. -/
theorem stripMax_eq_nil_of_all (k : Key) (h : ∀ b ∈ k, b = (255 : Fin 256)) :
    stripMax k = [] := by
  induction k with
  | nil => rfl
  | cons x rest ih =>
    have hr : stripMax rest = [] := ih (fun b hb => h b (List.mem_cons_of_mem x hb))
    have hx : x = (255 : Fin 256) := h x (List.mem_cons_self x rest)
    simp [stripMax, hr, hx]

/-- Conversely, an emptied strip loop means every byte was maximal. -/
theorem all_of_stripMax_eq_nil (k : Key) (h : stripMax k = []) :
    ∀ b ∈ k, b = (255 : Fin 256) := by
  induction k with
  | nil => intro b hb; simp at hb
  | cons x rest ih =>
    by_cases hc : ((stripMax rest).isEmpty && decide (x = (255 : Fin 256))) = true
    · simp only [Bool.and_eq_true, List.isEmpty_iff, decide_eq_true_eq] at hc
      intro b hb
      rcases List.mem_cons.mp hb with hb | hb
      · rw [hb]; exact hc.2
      · exact ih hc.1 b hb
    · simp only [stripMax] at h; rw [if_neg hc] at h
      exact absurd h (List.cons_ne_nil _ _)

/-- Shorter all-`0xFF` keys precede longer ones. -/
theorem keyLtb_replicate_255 (m n : Nat) (h : m < n) :
    keyLtb (List.replicate m (255 : Fin 256)) (List.replicate n (255 : Fin 256)) = true := by
  induction m generalizing n with
  | zero =>
    cases n with
    | zero => omega
    | succ n2 => rw [List.replicate_succ]; rfl
  | succ m2 ih =>
    cases n with
    | zero => omega
    | succ n2 =>
      rw [List.replicate_succ, List.replicate_succ]
      simp only [keyLtb, lt_irrefl, if_false]
      exact ih n2 (by omega)

/-- **C4, counterexample.** For the right bound `"\xff\xff"` the computed
successor is the maximal key (as the claim itself notes), whose length
`MAX_KEY_SIZE = 250` exceeds 2 — so the claim's `len(k') ≤ len(k)` fails. -/
theorem c4_sindex_successor_counterexample :
    sindexSuccessor [255, 255] = keyMaxKey ∧
    ¬ (keyLtb [255, 255] (sindexSuccessor [255, 255]) = true ∧
        (sindexSuccessor ([255, 255] : Key)).length ≤ ([255, 255] : Key).length) := by
  decide

/-- **C4, amended.** The datum-range-to-secondary-key-range conversion turns
the right bound `k` into an *open* bound at the successor
`k' = sindexSuccessor k` (strip trailing `0xFF` bytes, then increment the
last remaining byte; if the string becomes empty, use the maximal key).
Whenever `k` has at least one byte below `0xFF`, `k < k'` and
`len(k') ≤ len(k)`; when `k` consists only of `0xFF` bytes, `k'` is the
maximal key (so its length may exceed `len(k)`), and `k < k'` still holds
provided `k` is shorter than the maximal key.  Concretely,
`"ab\xff\xff" ↦ "ac"`, `"\xff\xff" ↦` maximal key, and `"a" ↦ "b"`. -/
theorem c4_sindex_successor_amended (k : Key) :
    (∀ start : Key, sindex_key_range start k =
      ⟨.closedb start, .openb (sindexSuccessor k)⟩) ∧
    ((∃ b ∈ k, b ≠ (255 : Fin 256)) →
      keyLtb k (sindexSuccessor k) = true ∧ (sindexSuccessor k).length ≤ k.length) ∧
    ((∀ b ∈ k, b = (255 : Fin 256)) →
      sindexSuccessor k = keyMaxKey ∧
        (k.length < MAX_KEY_SIZE → keyLtb k (sindexSuccessor k) = true)) ∧
    (sindexSuccessor [97, 98, 255, 255] = [97, 99] ∧
      sindexSuccessor [255, 255] = keyMaxKey ∧ sindexSuccessor [97] = [98]) := by
  refine ⟨fun _ => rfl, ?_, ?_, by decide⟩
  · rintro ⟨b0, hb0, hb0ne⟩
    have hs : ¬ (stripMax k).isEmpty = true := by
      rw [List.isEmpty_iff]
      intro hnil
      exact hb0ne (all_of_stripMax_eq_nil k hnil b0 hb0)
    have hsnil : stripMax k ≠ [] := fun hnil => hs (by rw [hnil]; rfl)
    have hsucc : sindexSuccessor k = incrLast (stripMax k) := by
      simp only [sindexSuccessor]
      rw [if_neg hs]
    obtain ⟨s0, a, hconcat⟩ := (List.eq_nil_or_concat (stripMax k)).resolve_left hsnil
    have hlast : (stripMax k).getLast? = some a := by
      rw [hconcat, List.concat_eq_append]
      exact List.getLast?_concat s0
    have hane : a ≠ (255 : Fin 256) := stripMax_getLast?_ne k a hlast
    obtain ⟨m, hm⟩ := stripMax_append_replicate k
    constructor
    · rw [hsucc]
      calc keyLtb k (incrLast (stripMax k))
          = keyLtb (stripMax k ++ List.replicate m 255) (incrLast (stripMax k)) := by
            rw [← hm]
        _ = true := keyLtb_append_incrLast (stripMax k) a hlast hane _
    · rw [hsucc, incrLast_length]
      exact stripMax_length_le k
  · intro hall
    have hnil : stripMax k = [] := stripMax_eq_nil_of_all k hall
    have hsucc : sindexSuccessor k = keyMaxKey := by
      rw [sindexSuccessor]
      simp [hnil]
    refine ⟨hsucc, fun hlen => ?_⟩
    have hk : k = List.replicate k.length (255 : Fin 256) :=
      List.eq_replicate_of_mem hall
    rw [hsucc, keyMaxKey]
    calc keyLtb k (List.replicate MAX_KEY_SIZE 255)
        = keyLtb (List.replicate k.length (255 : Fin 256))
            (List.replicate MAX_KEY_SIZE 255) := by rw [← hk]
      _ = true := keyLtb_replicate_255 k.length MAX_KEY_SIZE hlen

/-- Witness for C4 (amended): the right bound `"a"` has a byte below `0xFF`,
and indeed its successor `"b"` is larger and no longer. -/
theorem c4_sindex_successor_amended_witness :
    keyLtb [97] (sindexSuccessor [97]) = true ∧
    (sindexSuccessor ([97] : Key)).length ≤ ([97] : Key).length ∧
    sindexSuccessor [97] = [98] := by
  have h := c4_sindex_successor_amended [97]
  have h2 := h.2.1 ⟨97, by decide, by decide⟩
  exact ⟨h2.1, h2.2, by decide⟩

/-! ## C3: the distribution histogram size bound -/

/-- The coalescing loop shrinks a histogram of `n` buckets to
`⌈n / (combine + 1)⌉` buckets. -/
theorem scaleDownChunks_length (c : Nat) (l : List (Key × Nat)) :
    (scaleDownChunks c l).length = (l.length + c) / (c + 1) := by
  induction l using scaleDownChunks.induct c with
  | case1 =>
    simp only [scaleDownChunks, List.length_nil, Nat.zero_add]
    exact (Nat.div_eq_of_lt (by omega)).symm
  | case2 kc rest ih =>
    rw [scaleDownChunks]
    simp only [List.length_cons, List.length_drop] at ih ⊢
    rw [ih]
    have h2 : rest.length + 1 + c = rest.length + (c + 1) := by omega
    rw [h2, Nat.add_div_right _ (by omega)]
    rcases le_or_lt c rest.length with hc | hc
    · have h1 : rest.length - c + c = rest.length := by omega
      rw [h1]
    · have h1 : rest.length - c = 0 := by omega
      rw [h1, Nat.div_eq_of_lt (by omega), Nat.div_eq_of_lt (by omega)]

/-- `scale_down_distribution` caps any oversized histogram at
`result_limit` buckets (for a positive limit). -/
theorem scale_down_distribution_length_le (limit : Nat) (l : List (Key × Nat))
    (hpos : 0 < limit) (hgt : limit < l.length) :
    (scale_down_distribution limit l).length ≤ limit := by
  rw [scale_down_distribution, scaleDownChunks_length]
  set q := l.length / limit with hq
  have hmod : limit * q + l.length % limit = l.length := by
    rw [hq]; exact Nat.div_add_mod _ _
  have hmodlt : l.length % limit < limit := Nat.mod_lt _ hpos
  have h1 : l.length < limit * (q + 1) := by
    have hdist : limit * (q + 1) = limit * q + limit := by ring
    omega
  have hkey : l.length + q < (limit + 1) * (q + 1) := by
    have hexp : (limit + 1) * (q + 1) = limit * (q + 1) + q + 1 := by ring
    omega
  have hlt : (l.length + q) / (q + 1) < limit + 1 :=
    (Nat.div_lt_iff_lt_mul (Nat.succ_pos q)).mpr hkey
  exact Nat.lt_succ_iff.mp hlt

/-- **C3, counterexample.** With `result_limit = 0` the scale-down is
skipped entirely (`dg.result_limit > 0` fails), so a single shard response
with one key yields a histogram of size `1 > 0`: the bound does not hold
for every `result_limit`. -/
theorem c3_distribution_limit_counterexample :
    ¬ ((distributionUnshard 0 [⟨⟨0, 1, KeyRange.universe⟩, [([5], 1)]⟩]).length ≤ 0) := by
  have : distributionUnshard 0 [⟨⟨0, 1, KeyRange.universe⟩, [([5], 1)]⟩] = [([5], 1)] := by
    simp [distributionUnshard, distSort, distInsert, mergeGroupsAux, distTotal,
      mapInsertAll, mapInsert]
  rw [this]
  decide

/-- **C3, amended.** For every distribution read with *positive* limit
`result_limit` and every (non-empty, per the source's `guarantee`) sequence
of per-shard distribution responses, the key-count histogram of the
unsharded response has size at most `result_limit`.  (When
`result_limit = 0` the source treats the limit as absent and never scales
down.) -/
theorem c3_distribution_limit_amended (limit : Nat) (resps : List DistResp)
    (hpos : 0 < limit) (hne : resps ≠ []) :
    (distributionUnshard limit resps).length ≤ limit := by
  simp only [distributionUnshard]
  by_cases hgt : (mergeGroupsAux (distSort resps) []).length > limit
  · rw [if_pos (by simp [hpos, hgt])]
    exact scale_down_distribution_length_le limit _ hpos hgt
  · rw [if_neg (by simp [hgt])]
    omega

/-- Witness for C3 (amended): one shard, limit 1. -/
theorem c3_distribution_limit_amended_witness :
    (distributionUnshard 1 [⟨⟨0, 1, KeyRange.universe⟩, [([5], 1), ([6], 2)]⟩]).length ≤ 1 :=
  c3_distribution_limit_amended 1 [⟨⟨0, 1, KeyRange.universe⟩, [([5], 1), ([6], 2)]⟩]
    (by decide) (by simp)

/-! ## C2: range-read `truncated` / `last_key` composition -/

/-- Whether a per-shard rget response carries a success payload. -/
def RgetResp.isOkb (r : RgetResp) : Bool :=
  match r.result with
  | Except.ok _ => true
  | Except.error _ => false

/-- The `best`-pointer update of the rget unshard loop. -/
def bestStep (s : Sorting) (b : Option Key) (r : RgetResp) : Option Key :=
  if r.truncated then
    match b with
    | none => some r.last_key
    | some bk => if keyLeSort s r.last_key bk then some r.last_key else some bk
  else b

/-- Folding the `best` pointer over a response list. -/
def bestFold (s : Sorting) (b : Option Key) (resps : List RgetResp) : Option Key :=
  resps.foldl (bestStep s) b

theorem bestStep_not_trunc (s : Sorting) (b : Option Key) (r : RgetResp)
    (h : r.truncated = false) : bestStep s b r = b := by
  simp [bestStep, h]

theorem bestStep_none (s : Sorting) (r : RgetResp) (h : r.truncated = true) :
    bestStep s none r = some r.last_key := by
  simp [bestStep, h]

theorem bestStep_some_le (s : Sorting) (r : RgetResp) (bk : Key)
    (h : r.truncated = true) (hle : keyLeSort s r.last_key bk = true) :
    bestStep s (some bk) r = some r.last_key := by
  simp [bestStep, h, hle]

theorem bestStep_some_gt (s : Sorting) (r : RgetResp) (bk : Key)
    (h : r.truncated = true) (hle : ¬ keyLeSort s r.last_key bk = true) :
    bestStep s (some bk) r = some bk := by
  simp [bestStep, h, hle]

/-- On error-free responses, `rgetGo` computes `truncated` as the
disjunction of the shard flags and `last_key` as the folded best pointer
(with the sort-max default). -/
theorem rgetGo_ok (s : Sorting) (resps : List RgetResp)
    (hok : ∀ r ∈ resps, r.isOkb = true) :
    ∀ (t : Bool) (b : Option Key) (acc : List Nat),
      (rgetGo s resps t b acc).truncated = (t || resps.any (·.truncated)) ∧
      (rgetGo s resps t b acc).last_key = (bestFold s b resps).getD (key_max s) := by
  induction resps with
  | nil => intro t b acc; simp [rgetGo, bestFold]
  | cons r rest ih =>
    intro t b acc
    have hr : r.isOkb = true := hok r (List.mem_cons_self r rest)
    have hrest : ∀ x ∈ rest, x.isOkb = true :=
      fun x hx => hok x (List.mem_cons_of_mem r hx)
    rcases hres : r.result with e | v
    · rw [RgetResp.isOkb, hres] at hr; exact Bool.noConfusion hr
    · have hgo : rgetGo s (r :: rest) t b acc =
          rgetGo s rest (t || r.truncated) (bestStep s b r) (v :: acc) := by
        simp only [rgetGo, hres, bestStep]
      rw [hgo]
      have hstep := ih hrest (t || r.truncated) (bestStep s b r) (v :: acc)
      refine ⟨?_, ?_⟩
      · rw [hstep.1, List.any_cons, Bool.or_assoc]
      · rw [hstep.2, bestFold, bestFold, List.foldl_cons]

/-- The folded best pointer stays at `b` when nothing is truncated. -/
theorem bestFold_of_no_trunc (s : Sorting) (resps : List RgetResp)
    (h : ∀ r ∈ resps, r.truncated = false) :
    ∀ b, bestFold s b resps = b := by
  induction resps with
  | nil => intro b; rfl
  | cons r rest ih =>
    intro b
    rw [bestFold, List.foldl_cons,
      bestStep_not_trunc s b r (h r (List.mem_cons_self r rest))]
    exact ih (fun x hx => h x (List.mem_cons_of_mem r hx)) b

/-- The folded best pointer is the sort-least truncation point: it comes
from a truncated response (or the seed) and is sort-`≤` every truncated
response's `last_key` (and the seed). -/
theorem bestFold_spec (s : Sorting) (resps : List RgetResp) :
    ∀ (b : Option Key) (m : Key), bestFold s b resps = some m →
      (b = some m ∨ ∃ r ∈ resps, r.truncated = true ∧ r.last_key = m) ∧
      (∀ bk, b = some bk → keyLeSort s m bk = true) ∧
      (∀ r ∈ resps, r.truncated = true → keyLeSort s m r.last_key = true) := by
  induction resps with
  | nil =>
    intro b m hb
    have hb2 : b = some m := hb
    refine ⟨Or.inl hb2, ?_, ?_⟩
    · intro bk hbk
      rw [hb2] at hbk
      cases hbk
      exact keyLeSort_refl s m
    · intro r hr
      simp at hr
  | cons r rest ih =>
    intro b m hb
    have hb2 : bestFold s (bestStep s b r) rest = some m := by
      rw [bestFold] at hb ⊢
      rw [List.foldl_cons] at hb
      exact hb
    obtain ⟨hmem, hseed, hall⟩ := ih (bestStep s b r) m hb2
    by_cases ht : r.truncated = true
    · cases b with
      | none =>
        have hstep : bestStep s none r = some r.last_key := bestStep_none s r ht
        have hmle : keyLeSort s m r.last_key = true := hseed r.last_key hstep
        refine ⟨?_, ?_, ?_⟩
        · rcases hmem with hmem | ⟨r2, hr2, h2⟩
          · rw [hstep] at hmem
            exact Or.inr ⟨r, List.mem_cons_self r rest, ht, Option.some.inj hmem⟩
          · exact Or.inr ⟨r2, List.mem_cons_of_mem r hr2, h2⟩
        · intro bk hbk; exact Option.noConfusion hbk
        · intro r2 hr2 ht2
          rcases List.mem_cons.mp hr2 with hr2 | hr2
          · rw [hr2]; exact hmle
          · exact hall r2 hr2 ht2
      | some bk =>
        by_cases hle : keyLeSort s r.last_key bk = true
        · have hstep : bestStep s (some bk) r = some r.last_key :=
            bestStep_some_le s r bk ht hle
          have hmle : keyLeSort s m r.last_key = true := hseed r.last_key hstep
          refine ⟨?_, ?_, ?_⟩
          · rcases hmem with hmem | ⟨r2, hr2, h2⟩
            · rw [hstep] at hmem
              exact Or.inr ⟨r, List.mem_cons_self r rest, ht, Option.some.inj hmem⟩
            · exact Or.inr ⟨r2, List.mem_cons_of_mem r hr2, h2⟩
          · intro bk2 hbk2
            have hbk2b : bk2 = bk := (Option.some.inj hbk2).symm
            rw [hbk2b]
            exact keyLeSort_trans s m r.last_key bk hmle hle
          · intro r2 hr2 ht2
            rcases List.mem_cons.mp hr2 with hr2 | hr2
            · rw [hr2]; exact hmle
            · exact hall r2 hr2 ht2
        · have hstep : bestStep s (some bk) r = some bk :=
            bestStep_some_gt s r bk ht hle
          have hmbk : keyLeSort s m bk = true := hseed bk hstep
          have hbkr : keyLeSort s bk r.last_key = true :=
            (keyLeSort_total s bk r.last_key).resolve_right (fun h => hle h)
          refine ⟨?_, ?_, ?_⟩
          · rcases hmem with hmem | ⟨r2, hr2, h2⟩
            · rw [hstep] at hmem
              exact Or.inl hmem
            · exact Or.inr ⟨r2, List.mem_cons_of_mem r hr2, h2⟩
          · intro bk2 hbk2
            have hbk2b : bk2 = bk := (Option.some.inj hbk2).symm
            rw [hbk2b]
            exact hmbk
          · intro r2 hr2 ht2
            rcases List.mem_cons.mp hr2 with hr2 | hr2
            · rw [hr2]
              exact keyLeSort_trans s m bk r.last_key hmbk hbkr
            · exact hall r2 hr2 ht2
    · have htf : r.truncated = false := eq_false_of_ne_true ht
      have hstep : bestStep s b r = b := bestStep_not_trunc s b r htf
      rw [hstep] at hmem hseed
      refine ⟨?_, hseed, ?_⟩
      · rcases hmem with hmem | ⟨r2, hr2, h2⟩
        · exact Or.inl hmem
        · exact Or.inr ⟨r2, List.mem_cons_of_mem r hr2, h2⟩
      · intro r2 hr2 ht2
        rcases List.mem_cons.mp hr2 with hr2 | hr2
        · rw [hr2] at ht2; exact absurd ht2 ht
        · exact hall r2 hr2 ht2

/-- With a truncated response present (or a seed), the fold yields a key. -/
theorem bestFold_isSome (s : Sorting) (resps : List RgetResp) :
    ∀ b, (b.isSome = true ∨ ∃ r ∈ resps, r.truncated = true) →
      (bestFold s b resps).isSome = true := by
  induction resps with
  | nil =>
    intro b h
    rcases h with h | ⟨r, hr, _⟩
    · exact h
    · simp at hr
  | cons r rest ih =>
    intro b h
    rw [bestFold, List.foldl_cons]
    have hstep : ∀ bk : Key, (bestStep s (some bk) r).isSome = true := by
      intro bk
      by_cases ht : r.truncated = true
      · by_cases hle : keyLeSort s r.last_key bk = true
        · rw [bestStep_some_le s r bk ht hle]; rfl
        · rw [bestStep_some_gt s r bk ht hle]; rfl
      · rw [bestStep_not_trunc s (some bk) r (eq_false_of_ne_true ht)]; rfl
    rcases h with h | ⟨r2, hr2, ht2⟩
    · cases b with
      | none => simp at h
      | some bk => exact ih (bestStep s (some bk) r) (Or.inl (hstep bk))
    · rcases List.mem_cons.mp hr2 with hr2 | hr2
      · refine ih (bestStep s b r) (Or.inl ?_)
        cases b with
        | none =>
          rw [hr2] at ht2
          rw [bestStep_none s r ht2]
          rfl
        | some bk => exact hstep bk
      · exact ih (bestStep s b r) (Or.inr ⟨r2, hr2, ht2⟩)

/-- **C2.** For a range read with sort order `s` and error-free per-shard
responses: if no response is truncated, the unsharded response has
`truncated = false` and `last_key` equal to the sort-max sentinel
(`key_max s`: the maximal store key for ascending sorts, the minimal one
for descending); if at least one response is truncated, it has
`truncated = true` and `last_key` equal to the least — under the sort
order's comparator — of the truncated responses' `last_key` values. -/
theorem c2_rget_unshard_last_key (s : Sorting) (resps : List RgetResp)
    (hok : ∀ r ∈ resps, r.isOkb = true) :
    ((∀ r ∈ resps, r.truncated = false) →
      (rgetUnshard s resps).truncated = false ∧
      (rgetUnshard s resps).last_key = key_max s) ∧
    ((∃ r ∈ resps, r.truncated = true) →
      (rgetUnshard s resps).truncated = true ∧
      (∃ r ∈ resps, r.truncated = true ∧ (rgetUnshard s resps).last_key = r.last_key) ∧
      (∀ r ∈ resps, r.truncated = true →
        keyLeSort s (rgetUnshard s resps).last_key r.last_key = true)) := by
  have hgo := rgetGo_ok s resps hok false none []
  rw [rgetUnshard]
  constructor
  · intro hnone
    have hany : resps.any (·.truncated) = false := by
      rw [List.any_eq_false]
      intro r hr
      simp [hnone r hr]
    rw [hgo.1, hgo.2, hany, bestFold_of_no_trunc s resps hnone]
    exact ⟨rfl, rfl⟩
  · intro hsome
    have hisSome : (bestFold s none resps).isSome = true :=
      bestFold_isSome s resps none (Or.inr hsome)
    obtain ⟨m, hm⟩ := Option.isSome_iff_exists.mp hisSome
    obtain ⟨hmem, _, hall⟩ := bestFold_spec s resps none m hm
    have hmem2 : ∃ r ∈ resps, r.truncated = true ∧ r.last_key = m := by
      rcases hmem with hmem | hmem
      · exact absurd hmem (by simp)
      · exact hmem
    obtain ⟨r0, hr0, ht0, hk0⟩ := hmem2
    have hany : resps.any (·.truncated) = true :=
      List.any_eq_true.mpr ⟨r0, hr0, by simp [ht0]⟩
    refine ⟨by rw [hgo.1, hany]; rfl, ?_, ?_⟩
    · exact ⟨r0, hr0, ht0, by rw [hgo.2, hm, Option.getD_some, hk0]⟩
    · intro r hr ht
      rw [hgo.2, hm, Option.getD_some]
      exact hall r hr ht

/-- Witness for C2: the claim's concrete scenario — two shards, ascending
sort, truncated at `"m"` and `"q"`; the result is truncated with
`last_key = "m"`. -/
theorem c2_rget_unshard_last_key_witness :
    (rgetUnshard .ascending
      [⟨true, [109], Except.ok 0⟩, ⟨true, [113], Except.ok 1⟩]).truncated = true ∧
    (rgetUnshard .ascending
      [⟨true, [109], Except.ok 0⟩, ⟨true, [113], Except.ok 1⟩]).last_key = [109] := by
  have h := c2_rget_unshard_last_key .ascending
    [⟨true, [109], Except.ok 0⟩, ⟨true, [113], Except.ok 1⟩]
    (by
      intro r hr
      have : r = (⟨true, [109], Except.ok 0⟩ : RgetResp) ∨
          r = (⟨true, [113], Except.ok 1⟩ : RgetResp) := by simpa using hr
      rcases this with h | h <;> rw [h] <;> rfl)
  have h2 := h.2 ⟨⟨true, [109], Except.ok 0⟩, by simp, rfl⟩
  refine ⟨h2.1, ?_⟩
  have h3 := h2.2.2 ⟨true, [109], Except.ok 0⟩ (by simp) rfl
  obtain ⟨r, hr, ht, hk⟩ := h2.2.1
  have hr2 : r = (⟨true, [109], Except.ok 0⟩ : RgetResp) ∨
      r = (⟨true, [113], Except.ok 1⟩ : RgetResp) := by simpa using hr
  rcases hr2 with h5 | h5
  · rw [h5] at hk; exact hk
  · rw [h5] at hk
    rw [hk] at h3
    exact absurd h3 (by decide)

/-! ## C7: the bounding region of a batched write -/

/-- The `region_from_keys` fold acts independently on its four components. -/
theorem rfk_fold_eq (hash : Key → Nat) :
    ∀ (keys : List Key) (st : RFKState),
      keys.foldl (rfkStep hash) st =
        ⟨keys.foldl (fun mk k => if keyLtb k mk then k else mk) st.minKey,
         keys.foldl (fun mk k => if keyLtb mk k then k else mk) st.maxKey,
         keys.foldl (fun a k => if hash k < a then hash k else a) st.minHash,
         keys.foldl (fun a k => if a < hash k then hash k else a) st.maxHash⟩ := by
  intro keys
  induction keys with
  | nil => intro st; rfl
  | cons k keys ih =>
    intro st
    simp only [List.foldl_cons]
    rw [ih (rfkStep hash st k)]
    rfl

/-- Specification of the running-minimum fold over keys. -/
theorem foldMinKey_spec : ∀ (keys : List Key) (init : Key),
    (keys.foldl (fun mk k => if keyLtb k mk then k else mk) init = init ∨
      keys.foldl (fun mk k => if keyLtb k mk then k else mk) init ∈ keys) ∧
    keyLeb (keys.foldl (fun mk k => if keyLtb k mk then k else mk) init) init = true ∧
    (∀ k ∈ keys,
      keyLeb (keys.foldl (fun mk k => if keyLtb k mk then k else mk) init) k = true) := by
  intro keys
  induction keys with
  | nil =>
    intro init
    exact ⟨Or.inl rfl, keyLeb_refl init, fun k hk => absurd hk (List.not_mem_nil k)⟩
  | cons k0 keys ih =>
    intro init
    simp only [List.foldl_cons]
    set init2 := if keyLtb k0 init then k0 else init with hinit2
    obtain ⟨hmem, hle, hall⟩ := ih init2
    have hle_init : keyLeb init2 init = true := by
      rw [hinit2]
      by_cases h : keyLtb k0 init = true
      · rw [if_pos h]
        simp only [keyLeb, keyLtb_asymm k0 init h, Bool.not_false]
      · rw [if_neg h]
        exact keyLeb_refl init
    have hle_k0 : keyLeb init2 k0 = true := by
      rw [hinit2]
      by_cases h : keyLtb k0 init = true
      · rw [if_pos h]; exact keyLeb_refl k0
      · rw [if_neg h]
        simp only [keyLeb]
        simpa using h
    refine ⟨?_, ?_, ?_⟩
    · rcases hmem with hmem | hmem
      · rw [hmem, hinit2]
        by_cases h : keyLtb k0 init = true
        · rw [if_pos h]
          exact Or.inr (List.mem_cons_self k0 keys)
        · rw [if_neg h]
          exact Or.inl rfl
      · exact Or.inr (List.mem_cons_of_mem k0 hmem)
    · exact keyLeb_trans _ init2 init hle hle_init
    · intro k hk
      rcases List.mem_cons.mp hk with hk | hk
      · rw [hk]
        exact keyLeb_trans _ init2 k0 hle hle_k0
      · exact hall k hk

/-- Specification of the running-maximum fold over keys. -/
theorem foldMaxKey_spec : ∀ (keys : List Key) (init : Key),
    (keys.foldl (fun mk k => if keyLtb mk k then k else mk) init = init ∨
      keys.foldl (fun mk k => if keyLtb mk k then k else mk) init ∈ keys) ∧
    keyLeb init (keys.foldl (fun mk k => if keyLtb mk k then k else mk) init) = true ∧
    (∀ k ∈ keys,
      keyLeb k (keys.foldl (fun mk k => if keyLtb mk k then k else mk) init) = true) := by
  intro keys
  induction keys with
  | nil =>
    intro init
    exact ⟨Or.inl rfl, keyLeb_refl init, fun k hk => absurd hk (List.not_mem_nil k)⟩
  | cons k0 keys ih =>
    intro init
    simp only [List.foldl_cons]
    set init2 := if keyLtb init k0 then k0 else init with hinit2
    obtain ⟨hmem, hle, hall⟩ := ih init2
    have hinit_le : keyLeb init init2 = true := by
      rw [hinit2]
      by_cases h : keyLtb init k0 = true
      · rw [if_pos h]
        simp only [keyLeb, keyLtb_asymm init k0 h, Bool.not_false]
      · rw [if_neg h]
        exact keyLeb_refl init
    have hk0_le : keyLeb k0 init2 = true := by
      rw [hinit2]
      by_cases h : keyLtb init k0 = true
      · rw [if_pos h]; exact keyLeb_refl k0
      · rw [if_neg h]
        simp only [keyLeb]
        simpa using h
    refine ⟨?_, ?_, ?_⟩
    · rcases hmem with hmem | hmem
      · rw [hmem, hinit2]
        by_cases h : keyLtb init k0 = true
        · rw [if_pos h]
          exact Or.inr (List.mem_cons_self k0 keys)
        · rw [if_neg h]
          exact Or.inl rfl
      · exact Or.inr (List.mem_cons_of_mem k0 hmem)
    · exact keyLeb_trans init init2 _ hinit_le hle
    · intro k hk
      rcases List.mem_cons.mp hk with hk | hk
      · rw [hk]
        exact keyLeb_trans k0 init2 _ hk0_le hle
      · exact hall k hk

/-- Specification of the running-minimum fold over hash values. -/
theorem foldMinHash_spec (hash : Key → Nat) : ∀ (keys : List Key) (init : Nat),
    (keys.foldl (fun a k => if hash k < a then hash k else a) init = init ∨
      ∃ k ∈ keys, hash k = keys.foldl (fun a k => if hash k < a then hash k else a) init) ∧
    keys.foldl (fun a k => if hash k < a then hash k else a) init ≤ init ∧
    (∀ k ∈ keys, keys.foldl (fun a k => if hash k < a then hash k else a) init ≤ hash k) := by
  intro keys
  induction keys with
  | nil =>
    intro init
    exact ⟨Or.inl rfl, Nat.le_refl init, fun k hk => absurd hk (List.not_mem_nil k)⟩
  | cons k0 keys ih =>
    intro init
    simp only [List.foldl_cons]
    set init2 := if hash k0 < init then hash k0 else init with hinit2
    obtain ⟨hmem, hle, hall⟩ := ih init2
    have h1 : init2 ≤ init := by
      rw [hinit2]; split <;> omega
    have h2 : init2 ≤ hash k0 := by
      rw [hinit2]; split <;> omega
    refine ⟨?_, by omega, ?_⟩
    · rcases hmem with hmem | hmem
      · by_cases h : hash k0 < init
        · refine Or.inr ⟨k0, List.mem_cons_self k0 keys, ?_⟩
          rw [hmem, hinit2, if_pos h]
        · refine Or.inl ?_
          rw [hmem, hinit2, if_neg h]
      · obtain ⟨k, hk, hkeq⟩ := hmem
        exact Or.inr ⟨k, List.mem_cons_of_mem k0 hk, hkeq⟩
    · intro k hk
      rcases List.mem_cons.mp hk with hk | hk
      · rw [hk]; omega
      · exact hall k hk

/-- Specification of the running-maximum fold over hash values. -/
theorem foldMaxHash_spec (hash : Key → Nat) : ∀ (keys : List Key) (init : Nat),
    (keys.foldl (fun a k => if a < hash k then hash k else a) init = init ∨
      ∃ k ∈ keys, hash k = keys.foldl (fun a k => if a < hash k then hash k else a) init) ∧
    init ≤ keys.foldl (fun a k => if a < hash k then hash k else a) init ∧
    (∀ k ∈ keys, hash k ≤ keys.foldl (fun a k => if a < hash k then hash k else a) init) := by
  intro keys
  induction keys with
  | nil =>
    intro init
    exact ⟨Or.inl rfl, Nat.le_refl init, fun k hk => absurd hk (List.not_mem_nil k)⟩
  | cons k0 keys ih =>
    intro init
    simp only [List.foldl_cons]
    set init2 := if init < hash k0 then hash k0 else init with hinit2
    obtain ⟨hmem, hle, hall⟩ := ih init2
    have h1 : init ≤ init2 := by
      rw [hinit2]; split <;> omega
    have h2 : hash k0 ≤ init2 := by
      rw [hinit2]; split <;> omega
    refine ⟨?_, by omega, ?_⟩
    · rcases hmem with hmem | hmem
      · by_cases h : init < hash k0
        · refine Or.inr ⟨k0, List.mem_cons_self k0 keys, ?_⟩
          rw [hmem, hinit2, if_pos h]
        · refine Or.inl ?_
          rw [hmem, hinit2, if_neg h]
      · obtain ⟨k, hk, hkeq⟩ := hmem
        exact Or.inr ⟨k, List.mem_cons_of_mem k0 hk, hkeq⟩
    · intro k hk
      rcases List.mem_cons.mp hk with hk | hk
      · rw [hk]; omega
      · exact hall k hk

/-- **C7.** For every non-empty list of (bounded) keys hashed into the
64-bit hash space, the region computed by `region_from_keys` — used by
`write_t::get_region` for `batched_replace` (its key list) and
`batched_insert` (its rows' printed primary keys) — has hash interval
`[min hash, max hash + 1)` and closed-closed key range
`[min key, max key]`. -/
theorem c7_region_from_keys (hash : Key → Nat) (keys : List Key)
    (hne : keys ≠ [])
    (hlen : ∀ k ∈ keys, k.length ≤ MAX_KEY_SIZE)
    (hhash : ∀ k ∈ keys, hash k < HASH_SIZE) :
    (∃ k ∈ keys, hash k = (region_from_keys hash keys).hbeg) ∧
    (∀ k ∈ keys, (region_from_keys hash keys).hbeg ≤ hash k) ∧
    (∃ k ∈ keys, (region_from_keys hash keys).hend = hash k + 1) ∧
    (∀ k ∈ keys, hash k < (region_from_keys hash keys).hend) ∧
    (∃ mk xk, (region_from_keys hash keys).inner = ⟨.closedb mk, .closedb xk⟩ ∧
      mk ∈ keys ∧ xk ∈ keys ∧
      (∀ k ∈ keys, keyLeb mk k = true) ∧ (∀ k ∈ keys, keyLeb k xk = true)) ∧
    batchedReplaceRegion hash keys = region_from_keys hash keys ∧
    batchedInsertRegion hash keys = region_from_keys hash keys := by
  obtain ⟨k0, hk0⟩ : ∃ k0, k0 ∈ keys := by
    cases keys with
    | nil => exact absurd rfl hne
    | cons a l => exact ⟨a, List.mem_cons_self a l⟩
  have hrfk : region_from_keys hash keys =
      ⟨(keys.foldl (rfkStep hash) ⟨keyMaxKey, keyMinKey, HASH_SIZE - 1, 0⟩).minHash,
        (keys.foldl (rfkStep hash) ⟨keyMaxKey, keyMinKey, HASH_SIZE - 1, 0⟩).maxHash + 1,
        ⟨.closedb (keys.foldl (rfkStep hash) ⟨keyMaxKey, keyMinKey, HASH_SIZE - 1, 0⟩).minKey,
          .closedb (keys.foldl (rfkStep hash)
            ⟨keyMaxKey, keyMinKey, HASH_SIZE - 1, 0⟩).maxKey⟩⟩ := by
    simp only [region_from_keys]
    rw [if_neg (by simp [hne])]
  obtain ⟨hminK_mem, _, hminK_all⟩ := foldMinKey_spec keys keyMaxKey
  obtain ⟨hmaxK_mem, _, hmaxK_all⟩ := foldMaxKey_spec keys keyMinKey
  obtain ⟨hminH_mem, _, hminH_all⟩ := foldMinHash_spec hash keys (HASH_SIZE - 1)
  obtain ⟨hmaxH_mem, _, hmaxH_all⟩ := foldMaxHash_spec hash keys 0
  refine ⟨?_, ?_, ?_, ?_, ?_, rfl, rfl⟩ <;>
    (rw [hrfk, rfk_fold_eq hash keys ⟨keyMaxKey, keyMinKey, HASH_SIZE - 1, 0⟩]; dsimp only)
  · rcases hminH_mem with hmem | ⟨k, hk, hkeq⟩
    · refine ⟨k0, hk0, ?_⟩
      have h1 := hminH_all k0 hk0
      have h2 := hhash k0 hk0
      rw [hmem] at h1 ⊢
      have : 0 < HASH_SIZE := by rw [HASH_SIZE]; positivity
      omega
    · exact ⟨k, hk, hkeq⟩
  · exact hminH_all
  · rcases hmaxH_mem with hmem | ⟨k, hk, hkeq⟩
    · refine ⟨k0, hk0, ?_⟩
      have h1 := hmaxH_all k0 hk0
      rw [hmem] at h1 ⊢
      omega
    · exact ⟨k, hk, by rw [← hkeq]⟩
  · intro k hk
    have := hmaxH_all k hk
    omega
  · refine ⟨_, _, rfl, ?_, ?_, hminK_all, hmaxK_all⟩
    · rcases hminK_mem with hmem | hmem
      · have h1 := hminK_all k0 hk0
        have h2 : keyLeb k0 (keys.foldl (fun mk k => if keyLtb k mk then k else mk)
            keyMaxKey) = true := by
          rw [hmem]
          exact keyLeb_keyMaxKey k0 (hlen k0 hk0)
        have := keyLeb_antisymm _ _ h1 h2
        rw [this]
        exact hk0
      · exact hmem
    · rcases hmaxK_mem with hmem | hmem
      · have h1 := hmaxK_all k0 hk0
        have h2 : keyLeb (keys.foldl (fun mk k => if keyLtb mk k then k else mk)
            keyMinKey) k0 = true := by
          rw [hmem]
          exact keyLeb_keyMinKey k0
        have := keyLeb_antisymm _ _ h2 h1
        rw [this]
        exact hk0
      · exact hmem

/-- Concrete inputs for the C7 witness. -/
def c7Keys : List Key := [[1], [2, 2]]

/-- Concrete hasher for the C7 witness. -/
def c7Hash : Key → Nat := fun k => k.length

/-- Witness for C7: two concrete keys hashed by length. -/
theorem c7_region_from_keys_witness :
    (∃ k ∈ c7Keys, c7Hash k = (region_from_keys c7Hash c7Keys).hbeg) ∧
    (∀ k ∈ c7Keys, (region_from_keys c7Hash c7Keys).hbeg ≤ c7Hash k) ∧
    (∃ k ∈ c7Keys, (region_from_keys c7Hash c7Keys).hend = c7Hash k + 1) ∧
    (∀ k ∈ c7Keys, c7Hash k < (region_from_keys c7Hash c7Keys).hend) ∧
    (∃ mk xk, (region_from_keys c7Hash c7Keys).inner = ⟨.closedb mk, .closedb xk⟩ ∧
      mk ∈ c7Keys ∧ xk ∈ c7Keys ∧
      (∀ k ∈ c7Keys, keyLeb mk k = true) ∧ (∀ k ∈ c7Keys, keyLeb k xk = true)) ∧
    batchedReplaceRegion c7Hash c7Keys = region_from_keys c7Hash c7Keys ∧
    batchedInsertRegion c7Hash c7Keys = region_from_keys c7Hash c7Keys :=
  c7_region_from_keys c7Hash c7Keys (by decide) (by decide) (by decide)

/-! ## C9: first-error-wins in the merging unshard paths -/

/-- The rget unshard loop surfaces the lowest-indexed error payload. -/
theorem rgetGo_err (s : Sorting) :
    ∀ (resps : List RgetResp) (t : Bool) (b : Option Key) (acc : List Nat) (e : Nat),
      rgetFirstError resps = some e →
      (rgetGo s resps t b acc).result = Except.error e := by
  intro resps
  induction resps with
  | nil => intro t b acc e he; simp [rgetFirstError] at he
  | cons r rest ih =>
    intro t b acc e he
    rcases hres : r.result with e0 | v
    · have he0 : e0 = e := by
        rw [rgetFirstError, List.findSome?_cons] at he
        rw [hres] at he
        simpa using he
      rw [rgetGo.eq_def]
      simp only [hres]
      rw [he0]
    · have he2 : rgetFirstError rest = some e := by
        rw [rgetFirstError, List.findSome?_cons, hres] at he
        exact he
      have hgo : rgetGo s (r :: rest) t b acc =
          rgetGo s rest (t || r.truncated) (bestStep s b r) (v :: acc) := by
        simp only [rgetGo, hres, bestStep]
      rw [hgo]
      exact ih _ _ _ e he2

/-- The intersecting-geo unshard surfaces the lowest-indexed error. -/
theorem intersectingUnshard_err :
    ∀ (resps : List (Except Nat (List Nat))) (e : Nat),
      listFirstError resps = some e → intersectingUnshard resps = Except.error e := by
  intro resps
  induction resps with
  | nil => intro e he; simp [listFirstError] at he
  | cons r rest ih =>
    intro e he
    rcases r with e0 | a
    · have he0 : e0 = e := by
        rw [listFirstError, List.findSome?_cons] at he
        simpa using he
      rw [intersectingUnshard, he0]
    · have he2 : listFirstError rest = some e := by
        rw [listFirstError, List.findSome?_cons] at he
        exact he
      rw [intersectingUnshard, ih e he2]

/-- The collection pass of the nearest-geo unshard surfaces the
lowest-indexed error. -/
theorem collectIters_err :
    ∀ (resps : List (Except Nat (List GeoElt))) (e : Nat),
      geoFirstError resps = some e → collectIters resps = Except.error e := by
  intro resps
  induction resps with
  | nil => intro e he; simp [geoFirstError] at he
  | cons r rest ih =>
    intro e he
    rcases r with e0 | l
    · have he0 : e0 = e := by
        rw [geoFirstError, List.findSome?_cons] at he
        simpa using he
      rw [collectIters, he0]
    · have he2 : geoFirstError rest = some e := by
        rw [geoFirstError, List.findSome?_cons] at he
        exact he
      rw [collectIters, ih e he2]

/-- **C9.** In every merging read-unshard path (range read, geo
intersection, geo nearest), if some per-shard response carries an error
payload, the composite response carries an error payload rather than merged
results, namely the error of the lowest-indexed erroring shard. -/
theorem c9_first_error_wins (s : Sorting) (m : Nat)
    (rresps : List RgetResp) (iresps : List (Except Nat (List Nat)))
    (nresps : List (Except Nat (List GeoElt))) (e1 e2 e3 : Nat) :
    (rgetFirstError rresps = some e1 →
      (rgetUnshard s rresps).result = Except.error e1) ∧
    (listFirstError iresps = some e2 →
      intersectingUnshard iresps = Except.error e2) ∧
    (geoFirstError nresps = some e3 →
      nearestUnshard m nresps = Except.error e3) := by
  refine ⟨?_, ?_, ?_⟩
  · intro h
    exact rgetGo_err s rresps false none [] e1 h
  · intro h
    exact intersectingUnshard_err iresps e2 h
  · intro h
    rw [nearestUnshard, collectIters_err nresps e3 h]

/-! ## C5: the geo-nearest merge

The statement of C5 speaks about the shard each result element came from.
Elements are `(distance, datum)` pairs and the merge never inspects the
datum, so we parameterize the theorem by an arbitrary tagging function
`T : Nat → Nat` on datums, with the hypothesis that every element of the
`i`-th input list is tagged `i`. -/

/-- The ordering that a correctly merged output satisfies: strictly closer
first, ties broken by ascending shard tag. -/
def geoR (T : Nat → Nat) (a b : GeoElt) : Prop :=
  a.1 < b.1 ∨ (a.1 = b.1 ∧ T a.2 ≤ T b.2)

/-- Invariant of the merge frontier: every remaining list is non-empty,
sorted by ascending distance and tag-homogeneous, and the lists carry
strictly increasing tags. -/
def GoodIters (T : Nat → Nat) (iters : List (List GeoElt)) : Prop :=
  (∀ l ∈ iters, l ≠ [] ∧ l.Pairwise (fun a b => a.1 ≤ b.1) ∧
    ∀ a ∈ l, ∀ b ∈ l, T a.2 = T b.2) ∧
  iters.Pairwise (fun l1 l2 => ∀ a ∈ l1, ∀ b ∈ l2, T a.2 < T b.2)

theorem GoodIters.of_cons {T : Nat → Nat} {l : List GeoElt}
    {rest : List (List GeoElt)} (h : GoodIters T (l :: rest)) : GoodIters T rest :=
  ⟨fun l2 hl2 => h.1 l2 (List.mem_cons_of_mem l hl2), (List.pairwise_cons.mp h.2).2⟩

theorem GoodIters.head_cross {T : Nat → Nat} {l : List GeoElt}
    {rest : List (List GeoElt)} (h : GoodIters T (l :: rest)) :
    ∀ x ∈ l, ∀ b ∈ rest.flatten, T x.2 < T b.2 := by
  intro x hx b hb
  obtain ⟨l2, hl2, hbl2⟩ := List.mem_flatten.mp hb
  exact (List.pairwise_cons.mp h.2).1 l2 hl2 x hx b hbl2

theorem GoodIters.nil (T : Nat → Nat) : GoodIters T [] :=
  ⟨fun l hl => absurd hl (List.not_mem_nil l), List.Pairwise.nil⟩

theorem GoodIters.singleton {T : Nat → Nat} {l : List GeoElt} (hne : l ≠ [])
    (hsort : l.Pairwise (fun a b => a.1 ≤ b.1))
    (htag : ∀ a ∈ l, ∀ b ∈ l, T a.2 = T b.2) : GoodIters T [l] := by
  refine ⟨?_, List.pairwise_singleton _ l⟩
  intro l2 hl2
  rw [List.mem_singleton] at hl2
  rw [hl2]
  exact ⟨hne, hsort, htag⟩

/-- Within one good list, the head is `geoR`-below every element. -/
theorem geoR_head {T : Nat → Nat} {a : GeoElt} {l2 : List GeoElt}
    (hsort : (a :: l2).Pairwise (fun x y : GeoElt => x.1 ≤ y.1))
    (htag : ∀ x ∈ a :: l2, ∀ y ∈ a :: l2, T x.2 = T y.2) :
    ∀ b ∈ l2, geoR T a b := by
  intro b hb
  have hle : a.1 ≤ b.1 := (List.pairwise_cons.mp hsort).1 b hb
  rcases Nat.lt_or_ge a.1 b.1 with h | h
  · exact Or.inl h
  · have heq : a.1 = b.1 := by omega
    have hT : T a.2 = T b.2 :=
      htag a (List.mem_cons_self a l2) b (List.mem_cons_of_mem a hb)
    exact Or.inr ⟨heq, Nat.le_of_eq hT⟩

theorem popMin_eq_none_iff (iters : List (List GeoElt)) :
    popMin iters = none ↔ iters = [] := by
  cases iters with
  | nil => simp [popMin]
  | cons l rest =>
    simp only [popMin]
    constructor
    · intro h
      split at h
      · split at h <;> exact Option.noConfusion h
      · exact Option.noConfusion h
    · intro h
      exact absurd h (List.cons_ne_nil l rest)

/-- The elements of `xs` tagged `t`. -/
def filterTag (T : Nat → Nat) (t : Nat) (xs : List GeoElt) : List GeoElt :=
  xs.filter (fun x => decide (T x.2 = t))

theorem filterTag_append (T : Nat → Nat) (t : Nat) (xs ys : List GeoElt) :
    filterTag T t (xs ++ ys) = filterTag T t xs ++ filterTag T t ys := by
  simp [filterTag, List.filter_append]

theorem filterTag_cons (T : Nat → Nat) (t : Nat) (a : GeoElt) (xs : List GeoElt) :
    filterTag T t (a :: xs) =
      if T a.2 = t then a :: filterTag T t xs else filterTag T t xs := by
  by_cases h : T a.2 = t <;> simp [filterTag, List.filter_cons, h]

theorem self_mem_filterTag (T : Nat → Nat) {b : GeoElt} {xs : List GeoElt}
    (hb : b ∈ xs) : b ∈ filterTag T (T b.2) xs :=
  List.mem_filter.mpr ⟨hb, by simp⟩

theorem mem_of_mem_filterTag (T : Nat → Nat) {t : Nat} {x : GeoElt} {xs : List GeoElt}
    (h : x ∈ filterTag T t xs) : x ∈ xs :=
  (List.mem_filter.mp h).1

theorem filterTag_eq_nil (T : Nat → Nat) {t : Nat} {xs : List GeoElt}
    (h : ∀ x ∈ xs, ¬ T x.2 = t) : filterTag T t xs = [] := by
  rw [filterTag, List.filter_eq_nil_iff]
  intro a ha
  simpa using h a ha

/-- Computation rule of `popMin` on a frontier with a non-empty leading
list. -/
theorem popMin_cons (a : GeoElt) (l' : List GeoElt) (rest : List (List GeoElt)) :
    popMin ((a :: l') :: rest) =
      match popMin rest with
      | some (e2, rest2) =>
          if a.1 ≤ e2.1 then some (a, if l'.isEmpty then rest else l' :: rest)
          else some (e2, (a :: l') :: rest2)
      | none => some (a, if l'.isEmpty then rest else l' :: rest) := rfl

/-- One `popMin` step from a good non-empty frontier: it succeeds, preserves
the invariant, consumes exactly one element, and returns an element that is
`geoR`-below everything that remains; the final clause tracks how the
tag-filtered flattening changes. -/
theorem popMin_spec (T : Nat → Nat) :
    ∀ (iters : List (List GeoElt)), GoodIters T iters → iters ≠ [] →
      ∃ e iters2, popMin iters = some (e, iters2) ∧
        GoodIters T iters2 ∧
        iters2.flatten.length + 1 = iters.flatten.length ∧
        e ∈ iters.flatten ∧
        (∀ b ∈ iters2.flatten, geoR T e b) ∧
        (∀ x ∈ iters2.flatten, x ∈ iters.flatten) ∧
        (∀ t, filterTag T t iters.flatten =
          if T e.2 = t then e :: filterTag T t iters2.flatten
          else filterTag T t iters2.flatten) := by
  intro iters
  induction iters with
  | nil => intro _ hne; exact absurd rfl hne
  | cons l rest ih =>
    intro hG _
    obtain ⟨hlne, hlsort, hltag⟩ := hG.1 l (List.mem_cons_self l rest)
    obtain ⟨a, l', hal⟩ : ∃ a l', l = a :: l' := by
      cases l with
      | nil => exact absurd rfl hlne
      | cons a l' => exact ⟨a, l', rfl⟩
    subst hal
    have hflat : ((a :: l') :: rest).flatten = (a :: l') ++ rest.flatten :=
      List.flatten_cons
    -- facts about the leading list
    have hhead : ∀ b ∈ l', geoR T a b := geoR_head hlsort hltag
    have hheadle : ∀ b ∈ l', a.1 ≤ b.1 := (List.pairwise_cons.mp hlsort).1
    -- the advanced frontier when the head list is chosen
    have hadv : ∀ hrest2 : List (List GeoElt), True := fun _ => trivial
    rcases hrge : popMin rest with _ | ⟨e2, rest2⟩
    · -- rest is empty
      have hrest : rest = [] := (popMin_eq_none_iff rest).mp hrge
      subst hrest
      refine ⟨a, if l'.isEmpty then [] else [l'], ?_, ?_, ?_, ?_, ?_, ?_, ?_⟩
      · rw [popMin_cons, hrge]
      · by_cases he : l' = []
        · simp only [he, List.isEmpty_nil, if_pos]
          exact GoodIters.nil T
        · rw [if_neg (by simpa using he)]
          exact GoodIters.singleton he (List.Pairwise.of_cons hlsort)
            (fun x hx y hy => hltag x (List.mem_cons_of_mem a hx) y (List.mem_cons_of_mem a hy))
      · by_cases he : l' = [] <;>
          simp [he, List.flatten_cons]
      · simp
      · intro b hb
        by_cases he : l' = []
        · rw [if_pos (by simpa using he)] at hb
          simp at hb
        · rw [if_neg (by simpa using he)] at hb
          simp only [List.flatten_cons, List.flatten_nil, List.append_nil] at hb
          exact hhead b hb
      · intro x hx
        by_cases he : l' = []
        · rw [if_pos (by simpa using he)] at hx
          simp at hx
        · rw [if_neg (by simpa using he)] at hx
          simp only [List.flatten_cons, List.flatten_nil, List.append_nil] at hx
          simp [hx]
      · intro t
        have hflat2 : ((if l'.isEmpty then [] else [l'] : List (List GeoElt))).flatten = l' := by
          by_cases he : l' = [] <;> simp [he]
        rw [hflat2]
        simp only [List.flatten_cons, List.flatten_nil, List.append_nil]
        rw [filterTag_cons]
    · -- rest is non-empty and its own pop is described by the IH
      have hrestne : rest ≠ [] := by
        intro h
        rw [h] at hrge
        exact Option.noConfusion ((popMin_eq_none_iff []).mpr rfl ▸ hrge)
      obtain ⟨e2x, rest2x, hpop2, hG2, hlen2, hmem2, hR2, hsub2, hFt2⟩ :=
        ih hG.of_cons hrestne
      have hee : e2 = e2x ∧ rest2 = rest2x := by
        rw [hpop2] at hrge
        exact ⟨(congrArg Prod.fst (Option.some.inj hrge)).symm,
          (congrArg Prod.snd (Option.some.inj hrge)).symm⟩
      obtain ⟨he2, hrest2⟩ := hee
      subst he2
      subst hrest2
      -- cross-tag fact: the head list's tags are below every tag in rest
      have hcross : ∀ x ∈ a :: l', ∀ b ∈ rest.flatten, T x.2 < T b.2 :=
        hG.head_cross
      have hae2 : T a.2 < T e2.2 :=
        hcross a (List.mem_cons_self a l') e2 hmem2
      -- membership split for elements of rest.flatten
      have hsplit : ∀ b ∈ rest.flatten, b = e2 ∨ b ∈ rest2.flatten := by
        intro b hb
        have hbf : b ∈ filterTag T (T b.2) rest.flatten := self_mem_filterTag T hb
        rw [hFt2 (T b.2)] at hbf
        by_cases hbe : T e2.2 = T b.2
        · rw [if_pos hbe] at hbf
          rcases List.mem_cons.mp hbf with hbf | hbf
          · exact Or.inl hbf
          · exact Or.inr (mem_of_mem_filterTag T hbf)
        · rw [if_neg hbe] at hbf
          exact Or.inr (mem_of_mem_filterTag T hbf)
      by_cases hcmp : a.1 ≤ e2.1
      · -- the head list wins
        refine ⟨a, if l'.isEmpty then rest else l' :: rest, ?_, ?_, ?_, ?_, ?_, ?_, ?_⟩
        · rw [popMin_cons, hrge]
          simp [hcmp]
        · by_cases he : l' = []
          · rw [if_pos (by simpa using he)]
            exact hG.of_cons
          · rw [if_neg (by simpa using he)]
            refine ⟨?_, ?_⟩
            · intro l2 hl2
              rcases List.mem_cons.mp hl2 with hl2 | hl2
              · rw [hl2]
                exact ⟨he, List.Pairwise.of_cons hlsort,
                  fun x hx y hy => hltag x (List.mem_cons_of_mem a hx)
                    y (List.mem_cons_of_mem a hy)⟩
              · exact hG.of_cons.1 l2 hl2
            · rw [List.pairwise_cons]
              refine ⟨?_, hG.of_cons.2⟩
              intro l2 hl2 x hx b hb
              exact (List.pairwise_cons.mp hG.2).1 l2 hl2 x (List.mem_cons_of_mem a hx) b hb
        · by_cases he : l' = [] <;>
            simp [he, List.flatten_cons]
        · rw [hflat]
          exact List.mem_append_left _ (List.mem_cons_self a l')
        · intro b hb
          have hb2 : b ∈ l' ∨ b ∈ rest.flatten := by
            by_cases he : l' = []
            · rw [if_pos (by simpa using he)] at hb
              exact Or.inr hb
            · rw [if_neg (by simpa using he)] at hb
              rw [List.flatten_cons] at hb
              rcases List.mem_append.mp hb with hb | hb
              · exact Or.inl hb
              · exact Or.inr hb
          rcases hb2 with hb2 | hb2
          · exact hhead b hb2
          · rcases hsplit b hb2 with hb3 | hb3
            · -- b is the element rest would have produced
              rw [hb3]
              rcases Nat.lt_or_ge a.1 e2.1 with h | h
              · exact Or.inl h
              · have heq : a.1 = e2.1 := by omega
                exact Or.inr ⟨heq, Nat.le_of_lt hae2⟩
            · -- b is deeper inside rest
              have hR := hR2 b hb3
              rcases hR with hR | ⟨heq2, hle2⟩
              · rcases Nat.lt_or_ge a.1 e2.1 with h | h
                · exact Or.inl (by omega)
                · exact Or.inl (by omega)
              · rcases Nat.lt_or_ge a.1 e2.1 with h | h
                · exact Or.inl (by omega)
                · have heq : a.1 = b.1 := by omega
                  exact Or.inr ⟨heq, by omega⟩
        · intro x hx
          rw [hflat]
          by_cases he : l' = []
          · rw [if_pos (by simpa using he)] at hx
            exact List.mem_append_right _ hx
          · rw [if_neg (by simpa using he)] at hx
            rw [List.flatten_cons] at hx
            rcases List.mem_append.mp hx with hx | hx
            · exact List.mem_append_left _ (List.mem_cons_of_mem a hx)
            · exact List.mem_append_right _ hx
        · intro t
          have hflat2 : ((if l'.isEmpty then rest else l' :: rest) :
              List (List GeoElt)).flatten = l' ++ rest.flatten := by
            by_cases he : l' = [] <;> simp [he]
          rw [hflat2, hflat, List.cons_append, filterTag_cons]
      · -- the recursive element wins
        have hlt : e2.1 < a.1 := by omega
        refine ⟨e2, (a :: l') :: rest2, ?_, ?_, ?_, ?_, ?_, ?_, ?_⟩
        · rw [popMin_cons, hrge]
          simp [hcmp]
        · refine ⟨?_, ?_⟩
          · intro l2 hl2
            rcases List.mem_cons.mp hl2 with hl2 | hl2
            · rw [hl2]
              exact ⟨List.cons_ne_nil a l', hlsort, hltag⟩
            · exact hG2.1 l2 hl2
          · rw [List.pairwise_cons]
            refine ⟨?_, hG2.2⟩
            intro l2 hl2 x hx b hb
            have hb2 : b ∈ rest2.flatten :=
              List.mem_flatten.mpr ⟨l2, hl2, hb⟩
            exact hcross x hx b (hsub2 b hb2)
        · rw [hflat, List.flatten_cons]
          simp only [List.length_append]
          omega
        · rw [hflat]
          exact List.mem_append_right _ hmem2
        · intro b hb
          rw [List.flatten_cons] at hb
          rcases List.mem_append.mp hb with hb | hb
          · rcases List.mem_cons.mp hb with hb | hb
            · rw [hb]
              exact Or.inl hlt
            · exact Or.inl (by have := hheadle b hb; omega)
          · exact hR2 b hb
        · intro x hx
          rw [hflat]
          rw [List.flatten_cons] at hx
          rcases List.mem_append.mp hx with hx | hx
          · exact List.mem_append_left _ hx
          · exact List.mem_append_right _ (hsub2 x hx)
        · intro t
          rw [hflat, filterTag_append, List.flatten_cons, filterTag_append, hFt2 t]
          by_cases het : T e2.2 = t
          · rw [if_pos het, if_pos het]
            have hnil : filterTag T t (a :: l') = [] := by
              refine filterTag_eq_nil T ?_
              intro x hx hxt
              have := hcross x hx e2 hmem2
              omega
            rw [hnil]
            rfl
          · rw [if_neg het, if_neg het]

/-- The bounded k-way merge: with fuel not exceeding the remaining element
count, it emits exactly `fuel` elements, sorted by `geoR`, all drawn from
the frontier, and tag-filtered subsequences are emitted in order. -/
theorem mergeNearest_spec (T : Nat → Nat) :
    ∀ (n : Nat) (iters : List (List GeoElt)), GoodIters T iters →
      n ≤ iters.flatten.length →
      (mergeNearest n iters).length = n ∧
      (mergeNearest n iters).Pairwise (geoR T) ∧
      (∀ x ∈ mergeNearest n iters, x ∈ iters.flatten) ∧
      (∀ t, filterTag T t (mergeNearest n iters) <+: filterTag T t iters.flatten) := by
  intro n
  induction n with
  | zero =>
    intro iters _ _
    refine ⟨rfl, List.Pairwise.nil, ?_, ?_⟩
    · intro x hx; simp [mergeNearest] at hx
    · intro t
      exact List.nil_prefix
  | succ m ih =>
    intro iters hG hle
    have hne : iters ≠ [] := by
      intro h
      subst h
      simp at hle
    obtain ⟨e, iters2, hpop, hG2, hlen, hmem, hR, hsub, hFt⟩ := popMin_spec T iters hG hne
    have hmerge : mergeNearest (m + 1) iters = e :: mergeNearest m iters2 := by
      rw [mergeNearest, hpop]
    have hle2 : m ≤ iters2.flatten.length := by omega
    obtain ⟨ihlen, ihpw, ihmem, ihpre⟩ := ih iters2 hG2 hle2
    rw [hmerge]
    refine ⟨by simp [ihlen], ?_, ?_, ?_⟩
    · rw [List.pairwise_cons]
      exact ⟨fun b hb => hR b (ihmem b hb), ihpw⟩
    · intro x hx
      rcases List.mem_cons.mp hx with hx | hx
      · rw [hx]; exact hmem
      · exact hsub x (ihmem x hx)
    · intro t
      rw [filterTag_cons, hFt t]
      by_cases hat : T e.2 = t
      · rw [if_pos hat, if_pos hat]
        obtain ⟨w, hw⟩ := ihpre t
        exact ⟨w, by rw [List.cons_append, hw]⟩
      · rw [if_neg hat, if_neg hat]
        exact ihpre t

/-- The collection pass on all-ok responses returns the non-empty result
lists in order together with the total element count. -/
theorem collectIters_ok (inputs : List (List GeoElt)) :
    collectIters (inputs.map Except.ok) =
      Except.ok (inputs.filter (fun l => !l.isEmpty), (inputs.map List.length).sum) := by
  induction inputs with
  | nil => rfl
  | cons l rest ih =>
    rw [List.map_cons, collectIters, ih]
    dsimp only
    rw [List.filter_cons]
    by_cases he : l.isEmpty = true
    · have hl : l = [] := List.isEmpty_iff.mp he
      subst hl
      simp
    · have hne : ¬ l = [] := fun h => he (by rw [h]; rfl)
      simp [he, Nat.add_comm]

/-- Dropping empty lists does not change the flattening. -/
theorem flatten_filter_nonempty (xs : List (List GeoElt)) :
    (xs.filter (fun l => !l.isEmpty)).flatten = xs.flatten := by
  induction xs with
  | nil => rfl
  | cons l rest ih =>
    rw [List.filter_cons]
    by_cases he : l.isEmpty = true
    · have hl : l = [] := List.isEmpty_iff.mp he
      subst hl
      simpa using ih
    · simp only [he, Bool.not_false, if_pos]
      rw [List.flatten_cons, List.flatten_cons, ih]

/-- In a family whose `j`-th member is tagged `off + j` throughout,
filtering the flattening by tag `off + i` recovers exactly the `i`-th
member. -/
theorem filterTag_flatten_tagged (T : Nat → Nat) :
    ∀ (ls : List (List GeoElt)) (off : Nat),
      (∀ j (hj : j < ls.length), ∀ e ∈ ls[j], T e.2 = off + j) →
      ∀ i (hi : i < ls.length), filterTag T (off + i) ls.flatten = ls[i] := by
  intro ls
  induction ls with
  | nil => intro off _ i hi; simp at hi
  | cons l rest ih =>
    intro off htag i hi
    rw [List.flatten_cons, filterTag_append]
    have hl : ∀ e ∈ l, T e.2 = off := by
      have h0 := htag 0 (by simp)
      simpa using h0
    have htagrest : ∀ j (hj : j < rest.length), ∀ e ∈ rest[j], T e.2 = (off + 1) + j := by
      intro j hj e he
      have := htag (j + 1) (by simpa using Nat.succ_lt_succ hj)
        e (by simpa using he)
      omega
    cases i with
    | zero =>
      have h1 : filterTag T (off + 0) l = l := by
        rw [filterTag, List.filter_eq_self]
        intro a ha
        simp [hl a ha]
      have h2 : filterTag T (off + 0) rest.flatten = [] := by
        apply filterTag_eq_nil
        intro x hx
        obtain ⟨l2, hl2, hxl2⟩ := List.mem_flatten.mp hx
        obtain ⟨j, hj, hl2j⟩ := List.mem_iff_getElem.mp hl2
        have := htagrest j hj x (by rw [hl2j]; exact hxl2)
        omega
      rw [h1, h2, List.append_nil]
      simp
    | succ i2 =>
      have h2 : filterTag T (off + (i2 + 1)) l = [] := by
        apply filterTag_eq_nil
        intro x hx
        have := hl x hx
        omega
      rw [h2, List.nil_append]
      have hi2 : i2 < rest.length := by simpa using Nat.lt_of_succ_lt_succ hi
      have heq : off + (i2 + 1) = (off + 1) + i2 := by omega
      rw [heq]
      have := ih (off + 1) htagrest i2 hi2
      rw [this]
      simp

/-- **C5.** For every `nearest_geo_read` with limit `max_results` and
per-shard responses each carrying an error-free result list sorted by
ascending distance (elements of shard `i` tagged `i` by `T`), the unsharded
result list has length `min(sum of input lengths, max_results)`, is sorted
by ascending distance with ties resolved in favour of the lower shard index
(`geoR`), draws its elements from the inputs, and restricted to each
shard's tag is a prefix of that shard's list — an order-preserving merge of
prefixes of the inputs. -/
theorem c5_nearest_geo_unshard (maxResults : Nat) (inputs : List (List GeoElt))
    (T : Nat → Nat)
    (hsort : ∀ l ∈ inputs, l.Pairwise (fun a b : GeoElt => a.1 ≤ b.1))
    (htag : ∀ i (hi : i < inputs.length), ∀ e ∈ inputs[i], T e.2 = i) :
    ∃ O, nearestUnshard maxResults (inputs.map Except.ok) = Except.ok O ∧
      O.length = min (inputs.map List.length).sum maxResults ∧
      O.Pairwise (geoR T) ∧
      (∀ x ∈ O, x ∈ inputs.flatten) ∧
      (∀ i (hi : i < inputs.length), filterTag T i O <+: inputs[i]) := by
  have hcoll := collectIters_ok inputs
  have hflat : (inputs.filter (fun l => !l.isEmpty)).flatten = inputs.flatten :=
    flatten_filter_nonempty inputs
  have htag2 : ∀ l ∈ inputs, ∀ a ∈ l, ∀ b ∈ l, T a.2 = T b.2 := by
    intro l hl a ha b hb
    obtain ⟨i, hi, hli⟩ := List.mem_iff_getElem.mp hl
    subst hli
    rw [htag i hi a ha, htag i hi b hb]
  have hcrossP : inputs.Pairwise (fun l1 l2 => ∀ a ∈ l1, ∀ b ∈ l2, T a.2 < T b.2) := by
    rw [List.pairwise_iff_getElem]
    intro i j hi hj hij
    intro a ha b hb
    rw [htag i hi a ha, htag j hj b hb]
    exact hij
  have hG : GoodIters T (inputs.filter (fun l => !l.isEmpty)) := by
    constructor
    · intro l hl
      have hl2 : l ∈ inputs := List.mem_of_mem_filter hl
      have hlne : l ≠ [] := by
        have := List.of_mem_filter hl
        simpa using this
      exact ⟨hlne, hsort l hl2, htag2 l hl2⟩
    · exact hcrossP.sublist (List.filter_sublist inputs)
  have hsum : (inputs.map List.length).sum = inputs.flatten.length := by
    rw [List.length_flatten]
  have hfuel : min (inputs.map List.length).sum maxResults ≤
      (inputs.filter (fun l => !l.isEmpty)).flatten.length := by
    rw [hflat, ← hsum]
    omega
  obtain ⟨hlen, hpw, hmem, hpre⟩ :=
    mergeNearest_spec T (min (inputs.map List.length).sum maxResults)
      (inputs.filter (fun l => !l.isEmpty)) hG hfuel
  refine ⟨_, ?_, hlen, hpw, ?_, ?_⟩
  · rw [nearestUnshard, hcoll]
  · intro x hx
    rw [← hflat]
    exact hmem x hx
  · intro i hi
    have h1 := hpre i
    rw [hflat] at h1
    have h2 : filterTag T i inputs.flatten = inputs[i] := by
      have := filterTag_flatten_tagged T inputs 0
        (fun j hj e he => by rw [Nat.zero_add]; exact htag j hj e he) i hi
      rw [Nat.zero_add] at this
      exact this
    rw [h2] at h1
    exact h1

/-- Concrete inputs for the C5 witness: two shards with overlapping
distances. -/
def c5Inputs : List (List GeoElt) := [[(1, 0), (3, 0)], [(2, 1), (3, 1)]]

/-- Witness for C5: two concrete sorted shards, tags equal to datums. -/
theorem c5_nearest_geo_unshard_witness :
    ∃ O, nearestUnshard 3 (c5Inputs.map Except.ok) = Except.ok O ∧
      O.length = min (c5Inputs.map List.length).sum 3 ∧
      O.Pairwise (geoR (fun d => d)) ∧
      (∀ x ∈ O, x ∈ c5Inputs.flatten) ∧
      (∀ i (hi : i < c5Inputs.length), filterTag (fun d => d) i O <+: c5Inputs[i]) := by
  apply c5_nearest_geo_unshard 3 c5Inputs (fun d => d)
  · intro l hl
    have : l = [(1, 0), (3, 0)] ∨ l = [(2, 1), (3, 1)] := by simpa [c5Inputs] using hl
    rcases this with h | h <;> rw [h] <;> decide
  · intro i hi e he
    have hi2 : i = 0 ∨ i = 1 := by
      simp [c5Inputs] at hi
      omega
    rcases hi2 with h | h <;> subst h <;>
      revert he <;> simp [c5Inputs] <;> rintro (h | h) <;> simp [h]

/-- Witness for C9: concrete erroring shard lists for the three paths, each
with the error of the lowest-indexed erroring shard surfacing. -/
theorem c9_first_error_wins_witness :
    (rgetUnshard .ascending
      [⟨false, [], Except.ok 0⟩, ⟨true, [113], Except.error 7⟩,
        ⟨false, [], Except.error 9⟩]).result = Except.error 7 ∧
    intersectingUnshard [Except.ok [4], Except.error 5, Except.error 6] =
      Except.error 5 ∧
    nearestUnshard 3 [Except.error 8, Except.ok [(1, 1)], Except.error 9] =
      Except.error 8 := by
  have h := c9_first_error_wins .ascending 3
    [⟨false, [], Except.ok 0⟩, ⟨true, [113], Except.error 7⟩, ⟨false, [], Except.error 9⟩]
    [Except.ok [4], Except.error 5, Except.error 6]
    [Except.error 8, Except.ok [(1, 1)], Except.error 9] 7 5 8
  exact ⟨h.1 (by rfl), h.2.1 (by rfl), h.2.2 (by rfl)⟩

end RdbVerify
